import Mathlib

/-!
Verification of the TalkingLeaves orthography-coverage engine
(`TalkingLeaves.glyphsPlugin/Contents/Resources/TalkingLeaves.py`).

The Python source is shallowly embedded below.  Dictionaries become
association lists whose insertion prepends (so that lookup finds the most
recent write, exactly like a Python dict), characters are `Char`, strings
are `String`, Python exceptions (AttributeError on `None.name`, KeyError,
ZeroDivisionError) become `Except Unit`, and the host resolution service
`Glyphs.glyphInfoForUnicode` becomes an explicit parameter
`resolve : Char → Option String` (`none` models the service returning no
glyph identity).  Python `sorted` is a stable sort and is embedded as a
stable insertion sort on the same key.
-/

/-- Association-list lookup with the semantics of a Python dict read:
the most recent write wins (writes are modelled as prepends). -/
def alookup {β : Type} (k : String) : List (String × β) → Option β
  | [] => none
  | (a, b) :: rest => if a = k then some b else alookup k rest

/-- Same as `alookup` but keyed by characters. -/
def clookup {β : Type} (k : Char) : List (Char × β) → Option β
  | [] => none
  | (a, b) :: rest => if a = k then some b else clookup k rest

/-- Speaker count as recorded in the language database: the key may be
absent, present but null, or an integer (`langYaml.get('speakers', -1)`
distinguishes absence; `or -1` collapses null and `0`). -/
inductive Speakers where
  | absent : Speakers
  | null : Speakers
  | num : Int → Speakers
  deriving DecidableEq, Repr

/-- One orthography record of the language database (the fields of the
hyperglot record that `getLangsForScript_` reads: `script`, `status`,
`base_chars` and `base_marks`). -/
structure Ortho where
  script : String
  status : Option String
  base_chars : List Char
  base_marks : List Char
  deriving DecidableEq, Repr

/-- One language record (`langCode`, `name`, optional `preferred_name`,
`speakers`, optional `status`, optional `orthographies`; an absent
`orthographies` key is `none`). -/
structure Lang where
  code : String
  name : String
  preferred_name : Option String
  speakers : Speakers
  status : Option String
  orthographies : Option (List Ortho)
  deriving DecidableEq, Repr

/-- Insert a character into an ascending list (helper for Python
`sorted`). -/
def insChar (c : Char) : List Char → List Char
  | [] => [c]
  | d :: ds => if c ≤ d then c :: d :: ds else d :: insChar c ds

/-- Ascending character sort (Python `sorted` on characters). -/
def sortChars : List Char → List Char
  | [] => []
  | c :: cs => insChar c (sortChars cs)

/-- Keep one copy of every character (Python `set`). -/
def dedupChars : List Char → List Char
  | [] => []
  | c :: cs =>
    let r := dedupChars cs
    if c ∈ r then r else c :: r

/-- `sorted(set(l))` of line 297: deduplicated ascending characters. -/
def sortedSet (l : List Char) : List Char := sortChars (dedupChars l)

/-- `' '.join(l)` (line 787): the display string of a character list. -/
def joinSpace : List String → String
  | [] => ""
  | [s] => s
  | s :: rest => s ++ " " ++ joinSpace rest

/-- `addDottedCircle` of lines 320-324: prefix the dotted circle U+25CC
when the character is in the accumulated `allMarks` list. -/
def addDottedCircle (allMarks : List Char) (c : Char) : String :=
  if c ∈ allMarks then String.mk ['◌', c] else String.mk [c]

/-- The stripping rule of `getSelectedMissingChars` lines 665-667: a
two-character string starting with the dotted circle loses it. -/
def stripDottedCircle (s : String) : String :=
  match s.data with
  | [a, b] => if a = '◌' then String.mk [b] else s
  | _ => s

/-- `langYaml.get('speakers', -1) or -1` of line 338: missing, null and
zero speaker counts all collapse to the sentinel `-1`. -/
def speakersValue : Speakers → Int
  | .absent => -1
  | .null => -1
  | .num n => if n = 0 then -1 else n

/-- `langSpeakersValue_toCell` of lines 452-461: the sentinel `-1` is
rendered as the string `(no data)`, every other value passes through. -/
def langSpeakersValue_toCell (value : Int) : Sum String Int :=
  if value = -1 then Sum.inl "(no data)" else Sum.inr value

/-- The percentage computation of `updateStatusBar` line 420:
`supported*100//total`.  Python integer division raises
ZeroDivisionError when `total = 0`, modelled as `.error ()`. -/
def statusBarPercent (supported total : Nat) : Except Unit Nat :=
  if total = 0 then .error () else .ok (supported * 100 / total)

/-- The window-session state mutated by the coverage computation: the
character→glyph-info cache and its inverse (`glyphInfoByChar`,
`charsByGlyphName`, lines 90-91) and the accumulated mark list
(`allMarks`, line 92).  Dict writes prepend. -/
structure Session where
  glyphInfoByChar : List (Char × Option String)
  charsByGlyphName : List (String × Char)
  allMarks : List Char
  deriving DecidableEq, Repr

/-- `glyphInfoForChar_` (lines 348-357).  On a cache miss the raw result
of the resolution service is cached first (line 355); if the service
returned `none`, line 356 (`info.name`) raises AttributeError, modelled
as `.error ()`.  A cache hit returns the cached value without
re-querying.  The returned `Option String` is the stored info object
(`none` models a cached `None`). -/
def glyphInfoForChar (resolve : Char → Option String) (st : Session)
    (c : Char) : Except Unit (Option String × Session) :=
  match clookup c st.glyphInfoByChar with
  | some info => .ok (info, st)
  | none =>
    match resolve c with
    | none => .error ()
    | some g =>
      .ok (some g,
        { st with
          glyphInfoByChar := (c, some g) :: st.glyphInfoByChar,
          charsByGlyphName := (g, c) :: st.charsByGlyphName })

/-- The comprehension of line 305,
`[self.glyphInfoForChar_(c).name for c in orthoBase + orthoMarks]`:
resolve every character left to right; `.name` on a `None` info raises. -/
def mapGlyphNames (resolve : Char → Option String) :
    List Char → Session → Except Unit (List String × Session)
  | [], st => .ok ([], st)
  | c :: cs, st =>
    match glyphInfoForChar resolve st c with
    | .error e => .error e
    | .ok (none, _) => .error ()
    | .ok (some g, st₁) =>
      match mapGlyphNames resolve cs st₁ with
      | .error e => .error e
      | .ok (gs, st₂) => .ok (g :: gs, st₂)

/-- The partition loop of lines 307-313: glyph names present in the
font's glyph set versus the rest, order preserved. -/
def splitSupported (glyphset : List String) :
    List String → List String × List String
  | [] => ([], [])
  | g :: gs =>
    let r := splitSupported glyphset gs
    if g ∈ glyphset then (g :: r.1, r.2) else (r.1, g :: r.2)

/-- The back-mapping comprehensions of lines 315-316,
`[self.charsByGlyphName[g] for g in …]`; a missing key raises KeyError. -/
def charsFor (st : Session) : List String → Except Unit (List Char)
  | [] => .ok []
  | g :: gs =>
    match alookup g st.charsByGlyphName with
    | none => .error ()
    | some c =>
      match charsFor st gs with
      | .error e => .error e
      | .ok cs => .ok (c :: cs)

/-- Lines 296-316 of the orthography loop body: compute
`supportedChars` and `unsupportedChars` for one orthography. -/
def evalOrthoChars (resolve : Char → Option String) (glyphset : List String)
    (ortho : Ortho) (st : Session) :
    Except Unit ((List Char × List Char) × Session) :=
  let orthoBase := sortedSet ortho.base_chars
  let orthoMarks := ortho.base_marks
  match mapGlyphNames resolve (orthoBase ++ orthoMarks) st with
  | .error e => .error e
  | .ok (orthoGlyphNames, st₁) =>
    let split := splitSupported glyphset orthoGlyphNames
    match charsFor st₁ split.1 with
    | .error e => .error e
    | .ok supportedChars =>
      match charsFor st₁ split.2 with
      | .error e => .error e
      | .ok unsupportedChars => .ok ((supportedChars, unsupportedChars), st₁)

/-- One row of the languages table (lines 335-343).  `missing` and
`supported` hold the display-formatted character lists carried by the
`charList` values; the string shown for `missing` is
`joinSpace missing`. -/
structure Row where
  iso : String
  language : String
  speakers : Int
  orthoStatus : String
  langStatus : String
  missing : List String
  supported : List String
  deriving DecidableEq, Repr

/-- The running state of one `getLangsForScript_` call: the session plus
`scriptsLangCount[script]`, `currentScriptSupported`,
`currentScriptUnsupported` and the `items` list. -/
structure RunAcc where
  session : Session
  total : Nat
  supportedCount : Nat
  unsupportedCount : Nat
  items : List Row
  deriving DecidableEq, Repr

/-- Lines 292-343: the body of `for ortho in orthos`.  Appends this
orthography's marks to `allMarks` (line 319) before formatting, bumps
the complete/incomplete counters (lines 328-331) and appends a row when
the visibility flags admit it (lines 333-343). -/
def processOrtho (resolve : Char → Option String) (glyphset : List String)
    (showSupported showUnsupported : Bool) (lang : Lang) (ortho : Ortho)
    (acc : RunAcc) : Except Unit RunAcc :=
  match evalOrthoChars resolve glyphset ortho acc.session with
  | .error e => .error e
  | .ok ((supportedChars, unsupportedChars), st₁) =>
    let st₂ : Session := { st₁ with allMarks := st₁.allMarks ++ ortho.base_marks }
    let unsupportedCharsDisplay := unsupportedChars.map (addDottedCircle st₂.allMarks)
    let supportedCharsDisplay := supportedChars.map (addDottedCircle st₂.allMarks)
    let acc₁ : RunAcc :=
      if unsupportedChars.length ≠ 0 then
        { acc with session := st₂, unsupportedCount := acc.unsupportedCount + 1 }
      else
        { acc with session := st₂, supportedCount := acc.supportedCount + 1 }
    if (1 ≤ unsupportedChars.length ∧ showUnsupported = true) ∨
        (unsupportedChars.length = 0 ∧ showSupported = true) then
      .ok { acc₁ with items := acc₁.items ++
        [{ iso := lang.code,
           language := lang.preferred_name.getD lang.name,
           speakers := speakersValue lang.speakers,
           orthoStatus := ortho.status.getD "",
           langStatus := lang.status.getD "living",
           missing := unsupportedCharsDisplay,
           supported := supportedCharsDisplay }] }
    else .ok acc₁

/-- The `for ortho in orthos` loop over the script-matching
orthographies of one language. -/
def processOrthos (resolve : Char → Option String) (glyphset : List String)
    (showSupported showUnsupported : Bool) (lang : Lang) :
    List Ortho → RunAcc → Except Unit RunAcc
  | [], acc => .ok acc
  | o :: os, acc =>
    match processOrtho resolve glyphset showSupported showUnsupported lang o acc with
    | .error e => .error e
    | .ok acc₁ => processOrthos resolve glyphset showSupported showUnsupported lang os acc₁

/-- Lines 278-343 for one language: skip it when the `orthographies`
key is absent (line 282), filter its orthographies by the requested
script (lines 285-287), bump the script's orthography count
(lines 289-290), then run the orthography loop. -/
def processLang (resolve : Char → Option String) (glyphset : List String)
    (script : String) (showSupported showUnsupported : Bool) (lang : Lang)
    (acc : RunAcc) : Except Unit RunAcc :=
  match lang.orthographies with
  | none => .ok acc
  | some orthosAll =>
    let orthos := orthosAll.filter (fun o => o.script == script)
    let acc₁ :=
      if orthos.length ≠ 0 then { acc with total := acc.total + orthos.length }
      else acc
    processOrthos resolve glyphset showSupported showUnsupported lang orthos acc₁

/-- The `for langCode in self.hg.keys()` loop of line 276. -/
def processLangs (resolve : Char → Option String) (glyphset : List String)
    (script : String) (showSupported showUnsupported : Bool) :
    List Lang → RunAcc → Except Unit RunAcc
  | [], acc => .ok acc
  | l :: ls, acc =>
    match processLang resolve glyphset script showSupported showUnsupported l acc with
    | .error e => .error e
    | .ok acc₁ => processLangs resolve glyphset script showSupported showUnsupported ls acc₁

/-- The sort key of line 344, `len(x['Missing Chars'])`: `charList` is a
`str` subclass, so `len` is the length of the joined display string
(dotted circles and separating spaces included), not the number of
missing characters. -/
def rowSortKey (r : Row) : Nat := (joinSpace r.missing).length

/-- Stable insertion of a row by `rowSortKey` (helper embedding Python's
stable `sorted`): an earlier row precedes later rows of equal key. -/
def insRowAsc (x : Row) : List Row → List Row
  | [] => [x]
  | y :: ys => if rowSortKey x ≤ rowSortKey y then x :: y :: ys else y :: insRowAsc x ys

/-- `sorted(items, key=lambda x: len(x['Missing Chars']))` of line 344. -/
def sortRows : List Row → List Row
  | [] => []
  | x :: xs => insRowAsc x (sortRows xs)

/-- `getLangsForScript_` (lines 262-346): reset the per-run counters,
run the language loop, sort the collected rows. -/
def getLangsForScript (resolve : Char → Option String) (glyphset : List String)
    (db : List Lang) (script : String) (showSupported showUnsupported : Bool)
    (st : Session) : Except Unit RunAcc :=
  match processLangs resolve glyphset script showSupported showUnsupported db
      { session := st, total := 0, supportedCount := 0, unsupportedCount := 0,
        items := [] } with
  | .error e => .error e
  | .ok acc => .ok { acc with items := sortRows acc.items }

/-- Projection: did a run succeed? -/
def runOk (r : Except Unit RunAcc) : Bool :=
  match r with
  | .ok _ => true
  | .error _ => false

/-- Projection: the rows of a successful run (an aborted run has none). -/
def itemsOf (r : Except Unit RunAcc) : List Row :=
  match r with
  | .ok a => a.items
  | .error _ => []

/-- Projection: the session a successful run leaves behind. -/
def sessionOf (r : Except Unit RunAcc) (fallback : Session) : Session :=
  match r with
  | .ok a => a.session
  | .error _ => fallback

/-- Projection: the per-script totals of a successful run
(`scriptsLangCount[script]`, `currentScriptSupported`,
`currentScriptUnsupported`). -/
def countsOf (r : Except Unit RunAcc) : Nat × Nat × Nat :=
  match r with
  | .ok a => (a.total, a.supportedCount, a.unsupportedCount)
  | .error _ => (0, 0, 0)

/-- `speakers` contribution in `getScriptsAndSpeakers` line 372:
`lang.get('speakers', 0) or 0`. -/
def speakersOrZero (l : Lang) : Int :=
  match l.speakers with
  | .num n => n
  | _ => 0

/-- Lines 369-372: create the script entry on first sight (appended at
the end, dict insertion order) and add this language's speakers. -/
def bumpScript (s : String) (n : Int) :
    List (String × Int) → List (String × Int)
  | [] => [(s, n)]
  | (s', t) :: rest =>
    if s' = s then (s', t + n) :: rest else (s', t) :: bumpScript s n rest

/-- The `for ortho in orthos` loop of lines 368-372. -/
def addOrthosSpeakers (n : Int) : List Ortho → List (String × Int) → List (String × Int)
  | [], tbl => tbl
  | o :: os, tbl => addOrthosSpeakers n os (bumpScript o.script n tbl)

/-- The `for lang in self.hg.values()` loop of lines 366-372. -/
def buildSpeakerTable : List Lang → List (String × Int) → List (String × Int)
  | [], tbl => tbl
  | l :: ls, tbl =>
    buildSpeakerTable ls (addOrthosSpeakers (speakersOrZero l) (l.orthographies.getD []) tbl)

/-- Stable descending insertion by speaker total (helper embedding
Python's stable `sorted(..., reverse=True)` of line 373). -/
def insSpeakersDesc (x : String × Int) :
    List (String × Int) → List (String × Int)
  | [] => [x]
  | y :: ys => if y.2 ≤ x.2 then x :: y :: ys else y :: insSpeakersDesc x ys

/-- `sorted(speakers.items(), key=lambda x: x[1], reverse=True)`. -/
def sortSpeakersDesc : List (String × Int) → List (String × Int)
  | [] => []
  | x :: xs => insSpeakersDesc x (sortSpeakersDesc xs)

/-- `getScriptsAndSpeakers` (lines 359-373). -/
def getScriptsAndSpeakers (db : List Lang) : List (String × Int) :=
  sortSpeakersDesc (buildSpeakerTable db [])

/-- Number of orthographies of one language in the given script. -/
def orthoCountFor (s : String) (l : Lang) : Nat :=
  ((l.orthographies.getD []).filter (fun o => o.script == s)).length

/-- The total `getScriptsAndSpeakers` actually computes for a script: a
language contributes its speaker count once per orthography it has in
that script. -/
def scriptOrthoTotal (db : List Lang) (s : String) : Int :=
  (db.map (fun l => (orthoCountFor s l : Int) * speakersOrZero l)).sum

/-- Modelled from the spec: the per-script total the spec describes,
"sum ... of the speaker counts ... of every language that has an
orthography in that script" — each language counted once. -/
def specScriptLanguageTotal (db : List Lang) (s : String) : Int :=
  ((db.filter (fun l => 0 < orthoCountFor s l)).map speakersOrZero).sum

/-- The marks a run for `script` appends to `allMarks`: the
concatenated `base_marks` of the script-matching orthographies of one
language. -/
def langMarks (script : String) (l : Lang) : List Char :=
  match l.orthographies with
  | none => []
  | some os => ((os.filter (fun o => o.script == script)).map Ortho.base_marks).flatten

/-- All marks a run for `script` appends to `allMarks`, in order. -/
def dbMarks (db : List Lang) (script : String) : List Char :=
  (db.map (langMarks script)).flatten

/-- The characters one orthography evaluation resolves, in order. -/
def orthoChars (o : Ortho) : List Char :=
  sortedSet o.base_chars ++ o.base_marks

/-- All characters a run for `script` resolves. -/
def langChars (script : String) (l : Lang) : List Char :=
  match l.orthographies with
  | none => []
  | some os => ((os.filter (fun o => o.script == script)).map orthoChars).flatten

/-- All characters a run for `script` resolves, over the database. -/
def dbChars (db : List Lang) (script : String) : List Char :=
  (db.map (langChars script)).flatten

/-- Two sessions are equivalent when their caches are equal and their
mark accumulators have the same members. -/
def SessionEquiv (s₁ s₂ : Session) : Prop :=
  s₁.glyphInfoByChar = s₂.glyphInfoByChar ∧
  s₁.charsByGlyphName = s₂.charsByGlyphName ∧
  ∀ c, c ∈ s₁.allMarks ↔ c ∈ s₂.allMarks

/-- Result equivalence: both aborted, or equal payloads with equivalent
sessions. -/
def REquiv {α : Type} :
    Except Unit (α × Session) → Except Unit (α × Session) → Prop
  | .error _, .error _ => True
  | .ok (a, s), .ok (b, t) => a = b ∧ SessionEquiv s t
  | _, _ => False

/-- Accumulator equivalence: equal rows and counters, equivalent
sessions. -/
def AccEquiv (a₁ a₂ : RunAcc) : Prop :=
  SessionEquiv a₁.session a₂.session ∧ a₁.total = a₂.total ∧
  a₁.supportedCount = a₂.supportedCount ∧
  a₁.unsupportedCount = a₂.unsupportedCount ∧ a₁.items = a₂.items

/-- Run-result equivalence. -/
def RunEquiv : Except Unit RunAcc → Except Unit RunAcc → Prop
  | .error _, .error _ => True
  | .ok a, .ok b => AccEquiv a b
  | _, _ => False

/-- Accumulators that agree on everything the visibility flags cannot
influence: session and counters (the rows may differ). -/
def FlagAgree (a₁ a₂ : RunAcc) : Prop :=
  a₁.session = a₂.session ∧ a₁.total = a₂.total ∧
  a₁.supportedCount = a₂.supportedCount ∧
  a₁.unsupportedCount = a₂.unsupportedCount

/-- Run-result agreement up to the visibility flags. -/
def FlagRunAgree : Except Unit RunAcc → Except Unit RunAcc → Prop
  | .error _, .error _ => True
  | .ok a, .ok b => FlagAgree a b
  | _, _ => False

/-- Injectivity of the resolution service: distinct characters never
share a glyph identity (the one-to-one character↔glyph-name invariant
of the session). -/
def Injective1 (resolve : Char → Option String) : Prop :=
  ∀ c₁ c₂ g, resolve c₁ = some g → resolve c₂ = some g → c₁ = c₂

/-- A session whose caches agree with the resolution service: cached
infos are what the service returns, inverse entries really resolve to
their key, and every successfully cached character has an inverse
entry. -/
structure Consistent (resolve : Char → Option String) (st : Session) : Prop where
  cacheOk : ∀ c info, clookup c st.glyphInfoByChar = some info → info = resolve c
  inverseOk : ∀ g c, alookup g st.charsByGlyphName = some c → resolve c = some g
  inverseDefined : ∀ c g, clookup c st.glyphInfoByChar = some (some g) →
    (alookup g st.charsByGlyphName).isSome = true

/-- Concrete resolution service for witnesses: every character is its
own glyph name (injective and total). -/
def resolveSingleton : Char → Option String := fun c => some (String.mk [c])

/-- The fresh session of a newly opened window (lines 90-92). -/
def emptySession : Session := ⟨[], [], []⟩

/-- Fixture for the sorting bug: language `la` misses three mark
characters (display `◌x ◌y ◌z`, string length 8), language `lb` misses
four plain characters (display `p q r s`, string length 7). -/
def dbSortDemo : List Lang :=
  [{ code := "la", name := "LA", preferred_name := none, speakers := .num 1,
     status := none, orthographies := some [⟨"S", none, [], ['x', 'y', 'z']⟩] },
   { code := "lb", name := "LB", preferred_name := none, speakers := .num 1,
     status := none, orthographies := some [⟨"S", none, ['p', 'q', 'r', 's'], []⟩] }]

/-- Fixture for re-run divergence: `x` is a plain character of the first
language's orthography but a mark of the second's, so the accumulated
`allMarks` changes its formatting between the first and second run. -/
def dbMarkShift : List Lang :=
  [{ code := "aa", name := "A", preferred_name := none, speakers := .num 5,
     status := none, orthographies := some [⟨"S", none, ['x'], []⟩] },
   { code := "ab", name := "B", preferred_name := none, speakers := .absent,
     status := none, orthographies := some [⟨"S", none, ['y'], ['x']⟩] }]

/-- First run of `getLangsForScript_` on `dbMarkShift` from a fresh
session. -/
def runShift1 : Except Unit RunAcc :=
  getLangsForScript resolveSingleton [] dbMarkShift "S" false true emptySession

/-- Second run, in the same session. -/
def runShift2 : Except Unit RunAcc :=
  runShift1.bind (fun a =>
    getLangsForScript resolveSingleton [] dbMarkShift "S" false true a.session)

/-- Third run, in the same session. -/
def runShift3 : Except Unit RunAcc :=
  runShift2.bind (fun a =>
    getLangsForScript resolveSingleton [] dbMarkShift "S" false true a.session)

/-- Fixture for the dotted-circle scope: `x` is a mark of the first
language's orthography only, yet also a plain base character of the
second language's orthography. -/
def dbForeignMark : List Lang :=
  [{ code := "ka", name := "KA", preferred_name := none, speakers := .num 1,
     status := none, orthographies := some [⟨"S", none, ['a'], ['x']⟩] },
   { code := "kb", name := "KB", preferred_name := none, speakers := .num 1,
     status := none, orthographies := some [⟨"S", none, ['x', 'y'], []⟩] }]

/-- Fixture for speaker aggregation: one language with 5 speakers and
two orthographies in the same script `X`. -/
def dbDoubleCount : List Lang :=
  [{ code := "aaa", name := "A", preferred_name := none, speakers := .num 5,
     status := none, orthographies := some [⟨"X", none, ['a'], []⟩, ⟨"X", none, ['b'], []⟩] }]

/-- Fixture for speaker sentinels: a recorded zero count and a null
count. -/
def dbZeroNull : List Lang :=
  [{ code := "za", name := "Z", preferred_name := none, speakers := .num 0,
     status := none, orthographies := some [⟨"S", none, ['a'], []⟩] },
   { code := "zb", name := "W", preferred_name := none, speakers := .null,
     status := none, orthographies := some [⟨"S", none, ['b'], []⟩] }]

/-- C7: for every single mark character, prefixing it with the
dotted-circle placeholder and then applying the stripping rule (remove
the leading dotted circle from a two-character string starting with
U+25CC) recovers the original mark character exactly. -/
theorem C7_mark_roundtrip (marks : List Char) (c : Char) (h : c ∈ marks) :
    stripDottedCircle (addDottedCircle marks c) = String.mk [c] := by
  simp [addDottedCircle, stripDottedCircle, h]

/-- Witness for C7 at the combining acute accent. -/
theorem C7_mark_roundtrip_witness :
    stripDottedCircle (addDottedCircle ['́'] '́') = String.mk ['́'] :=
  C7_mark_roundtrip ['́'] '́' (by decide)

/-- C5 (amended): the percentage statistic equals
`complete * 100 / total` under integer division when the total is
positive; when the total is zero the computation raises
ZeroDivisionError — there is no defined no-data fallback. -/
theorem C5_amended_percent (supported total : Nat) :
    (0 < total → statusBarPercent supported total = .ok (supported * 100 / total)) ∧
    (total = 0 → statusBarPercent supported total = .error ()) := by
  constructor
  · intro h
    simp [statusBarPercent, Nat.pos_iff_ne_zero.mp h]
  · intro h
    simp [statusBarPercent, h]

/-- Witness for C5: 7 complete of 10 yields 70; zero total raises. -/
theorem C5_amended_percent_witness :
    statusBarPercent 7 10 = .ok 70 ∧ statusBarPercent 0 0 = .error () :=
  ⟨by have h := (C5_amended_percent 7 10).1 (by decide); simpa using h,
   (C5_amended_percent 0 0).2 rfl⟩

/-- C5 counterexample: with zero total orthographies the statistic is a
ZeroDivisionError, not a defined "no data" result. -/
theorem C5_counterexample_zero_total_errors :
    statusBarPercent 0 0 = .error () := rfl

/-- C3 (amended): when the resolution service returns no identity for a
not-yet-cached character, `glyphInfoForChar_` raises (AttributeError on
`info.name`) instead of degrading, and the character is never
classified. -/
theorem C3_amended_unresolved_errors (resolve : Char → Option String)
    (st : Session) (c : Char)
    (h₁ : clookup c st.glyphInfoByChar = none) (h₂ : resolve c = none) :
    glyphInfoForChar resolve st c = .error () := by
  simp [glyphInfoForChar, h₁, h₂]

/-- Witness for C3 (amended) at a concrete character. -/
theorem C3_amended_unresolved_errors_witness :
    glyphInfoForChar (fun _ => none) emptySession 'b' = .error () :=
  C3_amended_unresolved_errors (fun _ => none) emptySession 'b' rfl rfl

/-- C3 counterexample: with a service that resolves nothing, the lookup
of `a` aborts with an exception rather than returning, and a whole
coverage run aborts instead of classifying characters as unsupported. -/
theorem C3_counterexample_unresolvable_raises :
    glyphInfoForChar (fun _ => none) emptySession 'a' = .error () ∧
    runOk (getLangsForScript (fun _ => none) [] dbSortDemo "S" false true
      emptySession) = false := ⟨rfl, by decide⟩

/-- C10: a recorded zero speaker count, a recorded null, and an absent
entry all map to the sentinel -1, all display as "(no data)", and rows
for such languages carry -1. -/
theorem C10_zero_null_absent_speakers_no_data :
    speakersValue .absent = -1 ∧ speakersValue .null = -1 ∧
    speakersValue (.num 0) = -1 ∧
    langSpeakersValue_toCell (speakersValue (.num 0)) = Sum.inl "(no data)" ∧
    langSpeakersValue_toCell (speakersValue .null) = Sum.inl "(no data)" ∧
    langSpeakersValue_toCell (speakersValue .absent) = Sum.inl "(no data)" ∧
    (itemsOf (getLangsForScript resolveSingleton [] dbZeroNull "S" false true
      emptySession)).map Row.speakers = [-1, -1] := by decide

/-- C1 (code-bug demonstration): line 344 sorts by `len` of the
formatted `charList` string (8 for three dotted-circle marks, 7 for
four plain characters), so the run returns missing-character counts
[4, 3] — not ascending by count as `charList`'s docstring intends. -/
theorem C1_code_bug_sort_order_demo :
    (itemsOf (getLangsForScript resolveSingleton [] dbSortDemo "S" false true
      emptySession)).map (fun r => r.missing.length) = [4, 3] ∧
    (itemsOf (getLangsForScript resolveSingleton [] dbSortDemo "S" false true
      emptySession)).map (fun r => (joinSpace r.missing).length) = [7, 8] := by decide

/-- C2 counterexample: re-running `getLangsForScript_` with unchanged
script, database and font yields a different first row the second time
(`x` gains a dotted circle once the first run has accumulated it into
`allMarks`). -/
theorem C2_counterexample_rerun_differs :
    (itemsOf runShift1).map Row.missing = [["x"], ["y", "◌x"]] ∧
    (itemsOf runShift2).map Row.missing = [["◌x"], ["y", "◌x"]] ∧
    itemsOf runShift1 ≠ itemsOf runShift2 := by decide

/-- C4 counterexample: in the second language's row the character `x`
is displayed as `◌x` although the second orthography's own mark set is
empty — the prefix is driven by the accumulated mark list. -/
theorem C4_counterexample_foreign_mark_prefixed :
    (itemsOf (getLangsForScript resolveSingleton [] dbForeignMark "S" false true
      emptySession)).map Row.missing = [["a", "◌x"], ["◌x", "y"]] ∧
    dbForeignMark.map (fun l => (l.orthographies.getD []).map Ortho.base_marks)
      = [[['x']], [[]]] := by decide

/-- C9 counterexample: a language with 5 speakers and two orthographies
in script `X` is counted twice — the catalog reports 10, while the sum
over languages that the claim describes is 5. -/
theorem C9_counterexample_per_orthography_double_count :
    getScriptsAndSpeakers dbDoubleCount = [("X", 10)] ∧
    specScriptLanguageTotal dbDoubleCount "X" = 5 := by decide

/-- The row built at lines 335-343 for one orthography. -/
def mkRow (lang : Lang) (ortho : Ortho) (marks : List Char)
    (supC unsC : List Char) : Row :=
  { iso := lang.code,
    language := lang.preferred_name.getD lang.name,
    speakers := speakersValue lang.speakers,
    orthoStatus := ortho.status.getD "",
    langStatus := lang.status.getD "living",
    missing := unsC.map (addDottedCircle marks),
    supported := supC.map (addDottedCircle marks) }

/-- Inversion of one successful orthography step: the evaluation it ran,
the session it leaves, how the counters moved, and the row it did or
did not append. -/
theorem processOrtho_spec (resolve : Char → Option String)
    (glyphset : List String) (ss su : Bool) (lang : Lang) (ortho : Ortho)
    (acc acc' : RunAcc)
    (h : processOrtho resolve glyphset ss su lang ortho acc = .ok acc') :
    ∃ supC unsC st₁,
      evalOrthoChars resolve glyphset ortho acc.session = .ok ((supC, unsC), st₁) ∧
      acc'.session = { st₁ with allMarks := st₁.allMarks ++ ortho.base_marks } ∧
      acc'.total = acc.total ∧
      (unsC.length ≠ 0 →
        acc'.unsupportedCount = acc.unsupportedCount + 1 ∧
        acc'.supportedCount = acc.supportedCount) ∧
      (unsC.length = 0 →
        acc'.supportedCount = acc.supportedCount + 1 ∧
        acc'.unsupportedCount = acc.unsupportedCount) ∧
      (((1 ≤ unsC.length ∧ su = true) ∨ (unsC.length = 0 ∧ ss = true)) →
        acc'.items = acc.items ++
          [mkRow lang ortho (st₁.allMarks ++ ortho.base_marks) supC unsC]) ∧
      (¬((1 ≤ unsC.length ∧ su = true) ∨ (unsC.length = 0 ∧ ss = true)) →
        acc'.items = acc.items) := by
  unfold processOrtho at h
  cases heval : evalOrthoChars resolve glyphset ortho acc.session with
  | error e =>
    rw [heval] at h
    exact absurd h (by simp)
  | ok p =>
    obtain ⟨⟨supC, unsC⟩, st₁⟩ := p
    rw [heval] at h
    refine ⟨supC, unsC, st₁, rfl, ?_⟩
    simp only at h
    by_cases hlen : unsC.length = 0
    · by_cases hinc : (1 ≤ unsC.length ∧ su = true) ∨ (unsC.length = 0 ∧ ss = true)
      · rw [if_pos hinc, if_neg (not_not_intro hlen)] at h
        cases h
        exact ⟨rfl, rfl, fun hx => absurd hlen hx, fun _ => ⟨rfl, rfl⟩,
          fun _ => rfl, fun hx => absurd hinc hx⟩
      · rw [if_neg hinc, if_neg (not_not_intro hlen)] at h
        cases h
        exact ⟨rfl, rfl, fun hx => absurd hlen hx, fun _ => ⟨rfl, rfl⟩,
          fun hx => absurd hx hinc, fun _ => rfl⟩
    · by_cases hinc : (1 ≤ unsC.length ∧ su = true) ∨ (unsC.length = 0 ∧ ss = true)
      · rw [if_pos hinc, if_pos hlen] at h
        cases h
        exact ⟨rfl, rfl, fun _ => ⟨rfl, rfl⟩, fun hx => absurd hx hlen,
          fun _ => rfl, fun hx => absurd hinc hx⟩
      · rw [if_neg hinc, if_pos hlen] at h
        cases h
        exact ⟨rfl, rfl, fun _ => ⟨rfl, rfl⟩, fun hx => absurd hx hlen,
          fun hx => absurd hx hinc, fun _ => rfl⟩

/-- Inversion of a successful `glyphInfoForChar_`: either a cache hit
(state untouched) or a first resolution (both caches gain an entry). -/
theorem glyphInfoForChar_spec (resolve : Char → Option String) (st : Session)
    (c : Char) (info : Option String) (st' : Session)
    (h : glyphInfoForChar resolve st c = .ok (info, st')) :
    (clookup c st.glyphInfoByChar = some info ∧ st' = st) ∨
    (clookup c st.glyphInfoByChar = none ∧ ∃ g, resolve c = some g ∧
      info = some g ∧
      st' = { st with
        glyphInfoByChar := (c, some g) :: st.glyphInfoByChar,
        charsByGlyphName := (g, c) :: st.charsByGlyphName }) := by
  unfold glyphInfoForChar at h
  cases hc : clookup c st.glyphInfoByChar with
  | some i =>
    rw [hc] at h
    simp only [Except.ok.injEq, Prod.mk.injEq] at h
    exact Or.inl ⟨congrArg some h.1, h.2.symm⟩
  | none =>
    rw [hc] at h
    cases hr : resolve c with
    | none =>
      rw [hr] at h
      simp at h
    | some g =>
      rw [hr] at h
      simp only [Except.ok.injEq, Prod.mk.injEq] at h
      exact Or.inr ⟨rfl, g, rfl, h.1.symm, h.2.symm⟩

/-- A successful lookup leaves `allMarks` alone, preserves every cached
entry, and leaves the requested character cached. -/
theorem glyphInfoForChar_effects (resolve : Char → Option String)
    (st : Session) (c : Char) (info : Option String) (st₁ : Session)
    (h : glyphInfoForChar resolve st c = .ok (info, st₁)) :
    st₁.allMarks = st.allMarks ∧
    (∀ c' i, clookup c' st.glyphInfoByChar = some i →
      clookup c' st₁.glyphInfoByChar = some i) ∧
    clookup c st₁.glyphInfoByChar = some info := by
  rcases glyphInfoForChar_spec resolve st c info st₁ h with
    ⟨hc, rfl⟩ | ⟨hc, g, hg, rfl, rfl⟩
  · exact ⟨rfl, fun c' i hi => hi, hc⟩
  · refine ⟨rfl, ?_, ?_⟩
    · intro c' i hi
      have hne : c ≠ c' := by
        intro he
        rw [he] at hc
        rw [hc] at hi
        cases hi
      simpa [clookup, hne] using hi
    · simp [clookup]

/-- A cache hit returns the cached info and does not touch the state. -/
theorem glyphInfoForChar_warm (resolve : Char → Option String)
    (st : Session) (c : Char) (i : Option String)
    (h : clookup c st.glyphInfoByChar = some i) :
    glyphInfoForChar resolve st c = .ok (i, st) := by
  unfold glyphInfoForChar
  rw [h]

/-- `glyphInfoForChar_` treats equivalent sessions alike. -/
theorem glyphInfoForChar_cong (resolve : Char → Option String)
    (s₁ s₂ : Session) (c : Char) (he : SessionEquiv s₁ s₂) :
    REquiv (glyphInfoForChar resolve s₁ c) (glyphInfoForChar resolve s₂ c) := by
  obtain ⟨h1, h2, h3⟩ := he
  unfold glyphInfoForChar
  rw [h1]
  cases clookup c s₂.glyphInfoByChar with
  | some i => exact ⟨rfl, h1, h2, h3⟩
  | none =>
    cases resolve c with
    | none => trivial
    | some g =>
      refine ⟨rfl, ?_, ?_, h3⟩
      · simp [h1]
      · simp [h2]
/-- Evaluation of the comprehension when the head lookup raises. -/
theorem mapGlyphNames_cons_err (resolve : Char → Option String) (c : Char)
    (cs : List Char) (st : Session) (e : Unit)
    (h : glyphInfoForChar resolve st c = .error e) :
    mapGlyphNames resolve (c :: cs) st = .error e := by
  simp only [mapGlyphNames, h]

/-- Evaluation when the head lookup returns a cached `None` info:
`.name` raises at the call site of line 305. -/
theorem mapGlyphNames_cons_none (resolve : Char → Option String) (c : Char)
    (cs : List Char) (st : Session) (st₁ : Session)
    (h : glyphInfoForChar resolve st c = .ok (none, st₁)) :
    mapGlyphNames resolve (c :: cs) st = .error () := by
  simp only [mapGlyphNames, h]

/-- Evaluation when the head lookup succeeds with a glyph name. -/
theorem mapGlyphNames_cons_some (resolve : Char → Option String) (c : Char)
    (cs : List Char) (st : Session) (g : String) (st₁ : Session)
    (h : glyphInfoForChar resolve st c = .ok (some g, st₁)) :
    mapGlyphNames resolve (c :: cs) st =
      (match mapGlyphNames resolve cs st₁ with
       | .error e => .error e
       | .ok (gs, st₂) => .ok (g :: gs, st₂)) := by
  simp only [mapGlyphNames, h]

/-- Session effects of the resolution comprehension of line 305:
`allMarks` untouched, cached entries preserved, every requested
character cached with a glyph name afterwards. -/
theorem mapGlyphNames_effects (resolve : Char → Option String) :
    ∀ (cs : List Char) (st : Session) (gs : List String) (st' : Session),
    mapGlyphNames resolve cs st = .ok (gs, st') →
    st'.allMarks = st.allMarks ∧
    (∀ c i, clookup c st.glyphInfoByChar = some i →
      clookup c st'.glyphInfoByChar = some i) ∧
    (∀ c ∈ cs, ∃ g, clookup c st'.glyphInfoByChar = some (some g)) := by
  intro cs
  induction cs with
  | nil =>
    intro st gs st' h
    simp only [mapGlyphNames, Except.ok.injEq, Prod.mk.injEq] at h
    obtain ⟨-, h2⟩ := h
    subst h2
    exact ⟨rfl, fun c i hi => hi, by simp⟩
  | cons c cs ih =>
    intro st gs st' h
    cases hg : glyphInfoForChar resolve st c with
    | error e =>
      rw [mapGlyphNames_cons_err resolve c cs st e hg] at h
      simp at h
    | ok p =>
      obtain ⟨info, st₁⟩ := p
      cases info with
      | none =>
        rw [mapGlyphNames_cons_none resolve c cs st st₁ hg] at h
        simp at h
      | some g =>
        rw [mapGlyphNames_cons_some resolve c cs st g st₁ hg] at h
        cases hm : mapGlyphNames resolve cs st₁ with
        | error e =>
          rw [hm] at h
          simp at h
        | ok q =>
          obtain ⟨gs₂, st₂⟩ := q
          rw [hm] at h
          simp only [Except.ok.injEq, Prod.mk.injEq] at h
          obtain ⟨-, hst⟩ := h
          subst hst
          obtain ⟨ha1, hmono1, hcached1⟩ :=
            glyphInfoForChar_effects resolve st c (some g) st₁ hg
          obtain ⟨ha2, hmono2, hcached2⟩ := ih st₁ gs₂ _ hm
          refine ⟨ha2.trans ha1, fun c' i hi => hmono2 c' i (hmono1 c' i hi), ?_⟩
          intro c' hc'
          rcases List.mem_cons.mp hc' with rfl | hmem
          · exact ⟨g, hmono2 c' (some g) hcached1⟩
          · exact hcached2 c' hmem

/-- With every requested character already cached with a glyph name,
the comprehension succeeds without touching the session. -/
theorem mapGlyphNames_warm (resolve : Char → Option String) :
    ∀ (cs : List Char) (st : Session),
    (∀ c ∈ cs, ∃ g, clookup c st.glyphInfoByChar = some (some g)) →
    ∃ gs, mapGlyphNames resolve cs st = .ok (gs, st) := by
  intro cs
  induction cs with
  | nil =>
    intro st _
    exact ⟨[], rfl⟩
  | cons c cs ih =>
    intro st hall
    obtain ⟨g, hg⟩ := hall c (by simp)
    obtain ⟨gs, hgs⟩ := ih st (fun c' hc' => hall c' (by simp [hc']))
    refine ⟨g :: gs, ?_⟩
    rw [mapGlyphNames_cons_some resolve c cs st g st
      (glyphInfoForChar_warm resolve st c (some g) hg), hgs]

/-- The comprehension treats equivalent sessions alike. -/
theorem mapGlyphNames_cong (resolve : Char → Option String) :
    ∀ (cs : List Char) (s₁ s₂ : Session), SessionEquiv s₁ s₂ →
    REquiv (mapGlyphNames resolve cs s₁) (mapGlyphNames resolve cs s₂) := by
  intro cs
  induction cs with
  | nil =>
    intro s₁ s₂ he
    exact ⟨rfl, he⟩
  | cons c cs ih =>
    intro s₁ s₂ he
    have h1 := glyphInfoForChar_cong resolve s₁ s₂ c he
    cases hg1 : glyphInfoForChar resolve s₁ c with
    | error e =>
      cases hg2 : glyphInfoForChar resolve s₂ c with
      | error f =>
        rw [mapGlyphNames_cons_err resolve c cs s₁ e hg1,
          mapGlyphNames_cons_err resolve c cs s₂ f hg2]
        trivial
      | ok q =>
        rw [hg1, hg2] at h1
        exact absurd h1 (by cases q; simp [REquiv])
    | ok p =>
      cases hg2 : glyphInfoForChar resolve s₂ c with
      | error f =>
        rw [hg1, hg2] at h1
        exact absurd h1 (by cases p; simp [REquiv])
      | ok q =>
        obtain ⟨info₁, t₁⟩ := p
        obtain ⟨info₂, t₂⟩ := q
        rw [hg1, hg2] at h1
        obtain ⟨hinfo, ht⟩ := h1
        subst hinfo
        cases info₁ with
        | none =>
          rw [mapGlyphNames_cons_none resolve c cs s₁ t₁ hg1,
            mapGlyphNames_cons_none resolve c cs s₂ t₂ hg2]
          trivial
        | some g =>
          rw [mapGlyphNames_cons_some resolve c cs s₁ g t₁ hg1,
            mapGlyphNames_cons_some resolve c cs s₂ g t₂ hg2]
          have h2 := ih t₁ t₂ ht
          cases hm1 : mapGlyphNames resolve cs t₁ with
          | error e =>
            cases hm2 : mapGlyphNames resolve cs t₂ with
            | error f => trivial
            | ok q2 =>
              rw [hm1, hm2] at h2
              exact absurd h2 (by cases q2; simp [REquiv])
          | ok p2 =>
            cases hm2 : mapGlyphNames resolve cs t₂ with
            | error f =>
              rw [hm1, hm2] at h2
              exact absurd h2 (by cases p2; simp [REquiv])
            | ok q2 =>
              obtain ⟨gs₁, u₁⟩ := p2
              obtain ⟨gs₂, u₂⟩ := q2
              rw [hm1, hm2] at h2
              obtain ⟨hgs, hu⟩ := h2
              subst hgs
              exact ⟨rfl, hu⟩

/-- `charsFor` reads only the inverse cache. -/
theorem charsFor_congr (s₁ s₂ : Session)
    (h : s₁.charsByGlyphName = s₂.charsByGlyphName) :
    ∀ gs, charsFor s₁ gs = charsFor s₂ gs := by
  intro gs
  induction gs with
  | nil => rfl
  | cons g gs ih => simp only [charsFor, h, ih]

/-- Evaluation of the orthography body when resolution raises. -/
theorem evalOrthoChars_eval_err (resolve : Char → Option String)
    (glyphset : List String) (ortho : Ortho) (st : Session) (e : Unit)
    (h : mapGlyphNames resolve (sortedSet ortho.base_chars ++ ortho.base_marks) st
      = .error e) :
    evalOrthoChars resolve glyphset ortho st = .error e := by
  simp only [evalOrthoChars, h]

/-- Evaluation of the orthography body once resolution succeeded. -/
theorem evalOrthoChars_eval_ok (resolve : Char → Option String)
    (glyphset : List String) (ortho : Ortho) (st : Session)
    (names : List String) (st₁ : Session)
    (h : mapGlyphNames resolve (sortedSet ortho.base_chars ++ ortho.base_marks) st
      = .ok (names, st₁)) :
    evalOrthoChars resolve glyphset ortho st =
      (match charsFor st₁ (splitSupported glyphset names).1 with
       | .error e => .error e
       | .ok supportedChars =>
         match charsFor st₁ (splitSupported glyphset names).2 with
         | .error e => .error e
         | .ok unsupportedChars =>
           .ok ((supportedChars, unsupportedChars), st₁)) := by
  simp only [evalOrthoChars, h]

/-- Inversion of a successful orthography evaluation. -/
theorem evalOrthoChars_spec (resolve : Char → Option String)
    (glyphset : List String) (ortho : Ortho) (st : Session)
    (supC unsC : List Char) (st₁ : Session)
    (h : evalOrthoChars resolve glyphset ortho st = .ok ((supC, unsC), st₁)) :
    ∃ names,
      mapGlyphNames resolve (sortedSet ortho.base_chars ++ ortho.base_marks) st
        = .ok (names, st₁) ∧
      charsFor st₁ (splitSupported glyphset names).1 = .ok supC ∧
      charsFor st₁ (splitSupported glyphset names).2 = .ok unsC := by
  cases hm : mapGlyphNames resolve (sortedSet ortho.base_chars ++ ortho.base_marks) st with
  | error e =>
    rw [evalOrthoChars_eval_err resolve glyphset ortho st e hm] at h
    simp at h
  | ok p =>
    obtain ⟨names, st₂⟩ := p
    rw [evalOrthoChars_eval_ok resolve glyphset ortho st names st₂ hm] at h
    cases h1 : charsFor st₂ (splitSupported glyphset names).1 with
    | error e =>
      rw [h1] at h
      simp at h
    | ok sup =>
      rw [h1] at h
      cases h2 : charsFor st₂ (splitSupported glyphset names).2 with
      | error e =>
        rw [h2] at h
        simp at h
      | ok uns =>
        rw [h2] at h
        simp only [Except.ok.injEq, Prod.mk.injEq] at h
        obtain ⟨⟨hs, hu⟩, hst⟩ := h
        subst hs
        subst hu
        subst hst
        exact ⟨names, rfl, h1, h2⟩

/-- Session effects of one orthography evaluation. -/
theorem evalOrthoChars_effects (resolve : Char → Option String)
    (glyphset : List String) (ortho : Ortho) (st : Session)
    (supC unsC : List Char) (st₁ : Session)
    (h : evalOrthoChars resolve glyphset ortho st = .ok ((supC, unsC), st₁)) :
    st₁.allMarks = st.allMarks ∧
    (∀ c i, clookup c st.glyphInfoByChar = some i →
      clookup c st₁.glyphInfoByChar = some i) ∧
    (∀ c ∈ orthoChars ortho, ∃ g, clookup c st₁.glyphInfoByChar = some (some g)) := by
  obtain ⟨names, hm, -, -⟩ :=
    evalOrthoChars_spec resolve glyphset ortho st supC unsC st₁ h
  exact mapGlyphNames_effects resolve (orthoChars ortho) st names st₁ hm

/-- With every character of the orthography cached, the evaluation does
not touch the session. -/
theorem evalOrthoChars_warm (resolve : Char → Option String)
    (glyphset : List String) (ortho : Ortho) (st : Session)
    (supC unsC : List Char) (st₁ : Session)
    (hall : ∀ c ∈ orthoChars ortho, ∃ g,
      clookup c st.glyphInfoByChar = some (some g))
    (h : evalOrthoChars resolve glyphset ortho st = .ok ((supC, unsC), st₁)) :
    st₁ = st := by
  obtain ⟨names, hm, -, -⟩ :=
    evalOrthoChars_spec resolve glyphset ortho st supC unsC st₁ h
  obtain ⟨gs, hgs⟩ := mapGlyphNames_warm resolve (orthoChars ortho) st hall
  rw [show (sortedSet ortho.base_chars ++ ortho.base_marks) = orthoChars ortho from rfl]
    at hm
  rw [hgs] at hm
  simp only [Except.ok.injEq, Prod.mk.injEq] at hm
  exact hm.2.symm

/-- The orthography evaluation treats equivalent sessions alike. -/
theorem evalOrthoChars_cong (resolve : Char → Option String)
    (glyphset : List String) (ortho : Ortho) (s₁ s₂ : Session)
    (he : SessionEquiv s₁ s₂) :
    REquiv (evalOrthoChars resolve glyphset ortho s₁)
      (evalOrthoChars resolve glyphset ortho s₂) := by
  have h1 := mapGlyphNames_cong resolve
    (sortedSet ortho.base_chars ++ ortho.base_marks) s₁ s₂ he
  cases hm1 : mapGlyphNames resolve (sortedSet ortho.base_chars ++ ortho.base_marks) s₁ with
  | error e =>
    cases hm2 : mapGlyphNames resolve (sortedSet ortho.base_chars ++ ortho.base_marks) s₂ with
    | error f =>
      rw [evalOrthoChars_eval_err resolve glyphset ortho s₁ e hm1,
        evalOrthoChars_eval_err resolve glyphset ortho s₂ f hm2]
      trivial
    | ok q =>
      rw [hm1, hm2] at h1
      exact absurd h1 (by cases q; simp [REquiv])
  | ok p =>
    cases hm2 : mapGlyphNames resolve (sortedSet ortho.base_chars ++ ortho.base_marks) s₂ with
    | error f =>
      rw [hm1, hm2] at h1
      exact absurd h1 (by cases p; simp [REquiv])
    | ok q =>
      obtain ⟨names₁, t₁⟩ := p
      obtain ⟨names₂, t₂⟩ := q
      rw [hm1, hm2] at h1
      obtain ⟨hn, ht⟩ := h1
      subst hn
      rw [evalOrthoChars_eval_ok resolve glyphset ortho s₁ names₁ t₁ hm1,
        evalOrthoChars_eval_ok resolve glyphset ortho s₂ names₁ t₂ hm2]
      simp only [charsFor_congr t₁ t₂ ht.2.1]
      cases hc1 : charsFor t₂ (splitSupported glyphset names₁).1 with
      | error e => trivial
      | ok sup =>
        cases hc2 : charsFor t₂ (splitSupported glyphset names₁).2 with
        | error e => trivial
        | ok uns => exact ⟨rfl, ht⟩

/-- The dotted-circle formatter only tests membership in the mark
accumulator. -/
theorem addDottedCircle_congr (m₁ m₂ : List Char)
    (h : ∀ c, c ∈ m₁ ↔ c ∈ m₂) (c : Char) :
    addDottedCircle m₁ c = addDottedCircle m₂ c := by
  unfold addDottedCircle
  by_cases hc : c ∈ m₁
  · rw [if_pos hc, if_pos ((h c).mp hc)]
  · rw [if_neg hc, if_neg (fun hx => hc ((h c).mpr hx))]

/-- Rows built over mark accumulators with the same members are equal. -/
theorem mkRow_congr (lang : Lang) (ortho : Ortho) (m₁ m₂ : List Char)
    (supC unsC : List Char) (h : ∀ c, c ∈ m₁ ↔ c ∈ m₂) :
    mkRow lang ortho m₁ supC unsC = mkRow lang ortho m₂ supC unsC := by
  have hmap : ∀ l : List Char,
      l.map (addDottedCircle m₁) = l.map (addDottedCircle m₂) :=
    fun l => List.map_congr_left (fun a _ => addDottedCircle_congr m₁ m₂ h a)
  unfold mkRow
  rw [hmap, hmap]

/-- An orthography step aborts exactly when its evaluation aborts. -/
theorem processOrtho_eval_err (resolve : Char → Option String)
    (glyphset : List String) (ss su : Bool) (lang : Lang) (ortho : Ortho)
    (acc : RunAcc) (e : Unit)
    (h : evalOrthoChars resolve glyphset ortho acc.session = .error e) :
    processOrtho resolve glyphset ss su lang ortho acc = .error e := by
  unfold processOrtho
  rw [h]

/-- A successful evaluation always yields a successful step. -/
theorem processOrtho_ok_of_eval_ok (resolve : Char → Option String)
    (glyphset : List String) (ss su : Bool) (lang : Lang) (ortho : Ortho)
    (acc : RunAcc) (supC unsC : List Char) (st₁ : Session)
    (h : evalOrthoChars resolve glyphset ortho acc.session = .ok ((supC, unsC), st₁)) :
    ∃ acc', processOrtho resolve glyphset ss su lang ortho acc = .ok acc' := by
  unfold processOrtho
  rw [h]
  dsimp only
  split
  · exact ⟨_, rfl⟩
  · exact ⟨_, rfl⟩

/-- Session effects of one successful orthography step. -/
theorem processOrtho_effects (resolve : Char → Option String)
    (glyphset : List String) (ss su : Bool) (lang : Lang) (ortho : Ortho)
    (acc acc' : RunAcc)
    (h : processOrtho resolve glyphset ss su lang ortho acc = .ok acc') :
    acc'.session.allMarks = acc.session.allMarks ++ ortho.base_marks ∧
    (∀ c i, clookup c acc.session.glyphInfoByChar = some i →
      clookup c acc'.session.glyphInfoByChar = some i) ∧
    (∀ c ∈ orthoChars ortho, ∃ g,
      clookup c acc'.session.glyphInfoByChar = some (some g)) := by
  obtain ⟨supC, unsC, st₁, heval, hsess, -⟩ :=
    processOrtho_spec resolve glyphset ss su lang ortho acc acc' h
  obtain ⟨ha, hmono, hcached⟩ :=
    evalOrthoChars_effects resolve glyphset ortho acc.session supC unsC st₁ heval
  rw [hsess]
  exact ⟨by rw [ha], hmono, hcached⟩

/-- A step over a session holding all the orthography's characters only
appends marks. -/
theorem processOrtho_warm (resolve : Char → Option String)
    (glyphset : List String) (ss su : Bool) (lang : Lang) (ortho : Ortho)
    (acc acc' : RunAcc)
    (hall : ∀ c ∈ orthoChars ortho, ∃ g,
      clookup c acc.session.glyphInfoByChar = some (some g))
    (h : processOrtho resolve glyphset ss su lang ortho acc = .ok acc') :
    acc'.session.glyphInfoByChar = acc.session.glyphInfoByChar ∧
    acc'.session.charsByGlyphName = acc.session.charsByGlyphName := by
  obtain ⟨supC, unsC, st₁, heval, hsess, -⟩ :=
    processOrtho_spec resolve glyphset ss su lang ortho acc acc' h
  have hst : st₁ = acc.session :=
    evalOrthoChars_warm resolve glyphset ortho acc.session supC unsC st₁ hall heval
  subst hst
  rw [hsess]
  exact ⟨rfl, rfl⟩

/-- An orthography step treats equivalent accumulators alike. -/
theorem processOrtho_cong (resolve : Char → Option String)
    (glyphset : List String) (ss su : Bool) (lang : Lang) (ortho : Ortho)
    (acc₁ acc₂ : RunAcc) (he : AccEquiv acc₁ acc₂) :
    RunEquiv (processOrtho resolve glyphset ss su lang ortho acc₁)
      (processOrtho resolve glyphset ss su lang ortho acc₂) := by
  obtain ⟨hsess, htot, hsup, huns, hitems⟩ := he
  have h1 := evalOrthoChars_cong resolve glyphset ortho acc₁.session acc₂.session hsess
  cases he1 : evalOrthoChars resolve glyphset ortho acc₁.session with
  | error e =>
    cases he2 : evalOrthoChars resolve glyphset ortho acc₂.session with
    | error f =>
      rw [processOrtho_eval_err resolve glyphset ss su lang ortho acc₁ e he1,
        processOrtho_eval_err resolve glyphset ss su lang ortho acc₂ f he2]
      trivial
    | ok q =>
      rw [he1, he2] at h1
      exact absurd h1 (by cases q; simp [REquiv])
  | ok p =>
    cases he2 : evalOrthoChars resolve glyphset ortho acc₂.session with
    | error f =>
      rw [he1, he2] at h1
      exact absurd h1 (by cases p; simp [REquiv])
    | ok q =>
      obtain ⟨⟨supC₁, unsC₁⟩, t₁⟩ := p
      obtain ⟨⟨supC₂, unsC₂⟩, t₂⟩ := q
      rw [he1, he2] at h1
      obtain ⟨hpair, ht⟩ := h1
      rw [Prod.mk.injEq] at hpair
      obtain ⟨hsupC, hunsC⟩ := hpair
      subst hsupC
      subst hunsC
      obtain ⟨a₁, ha₁⟩ := processOrtho_ok_of_eval_ok resolve glyphset ss su
        lang ortho acc₁ supC₁ unsC₁ t₁ he1
      obtain ⟨a₂, ha₂⟩ := processOrtho_ok_of_eval_ok resolve glyphset ss su
        lang ortho acc₂ supC₁ unsC₁ t₂ he2
      rw [ha₁, ha₂]
      obtain ⟨sC, uC, u₁, hev₁, hs₁, ht₁, hu₁, hz₁, hi₁, hn₁⟩ :=
        processOrtho_spec resolve glyphset ss su lang ortho acc₁ a₁ ha₁
      obtain ⟨sC₂, uC₂, u₂, hev₂, hs₂, ht₂, hu₂, hz₂, hi₂, hn₂⟩ :=
        processOrtho_spec resolve glyphset ss su lang ortho acc₂ a₂ ha₂
      rw [he1] at hev₁
      rw [he2] at hev₂
      simp only [Except.ok.injEq, Prod.mk.injEq] at hev₁ hev₂
      obtain ⟨⟨hev₁a, hev₁b⟩, hev₁c⟩ := hev₁
      obtain ⟨⟨hev₂a, hev₂b⟩, hev₂c⟩ := hev₂
      subst hev₁a
      subst hev₁b
      subst hev₁c
      subst hev₂a
      subst hev₂b
      subst hev₂c
      have hmarks : ∀ c, c ∈ t₁.allMarks ++ ortho.base_marks ↔
          c ∈ t₂.allMarks ++ ortho.base_marks := by
        intro c
        simp only [List.mem_append]
        exact or_congr_left (ht.2.2 c)
      have hgoal : AccEquiv a₁ a₂ := ?_
      · exact hgoal
      refine ⟨?_, ?_, ?_, ?_, ?_⟩
      · rw [hs₁, hs₂]
        exact ⟨ht.1, ht.2.1, hmarks⟩
      · rw [ht₁, ht₂, htot]
      · by_cases hz : unsC₁.length = 0
        · rw [(hz₁ hz).1, (hz₂ hz).1, hsup]
        · rw [(hu₁ hz).2, (hu₂ hz).2, hsup]
      · by_cases hz : unsC₁.length = 0
        · rw [(hz₁ hz).2, (hz₂ hz).2, huns]
        · rw [(hu₁ hz).1, (hu₂ hz).1, huns]
      · by_cases hinc : (1 ≤ unsC₁.length ∧ su = true) ∨ (unsC₁.length = 0 ∧ ss = true)
        · rw [hi₁ hinc, hi₂ hinc, hitems,
            mkRow_congr lang ortho (t₁.allMarks ++ ortho.base_marks)
              (t₂.allMarks ++ ortho.base_marks) supC₁ unsC₁ hmarks]
        · rw [hn₁ hinc, hn₂ hinc, hitems]

/-- Evaluation: the empty orthography loop. -/
theorem processOrthos_nil (resolve : Char → Option String)
    (glyphset : List String) (ss su : Bool) (lang : Lang) (acc : RunAcc) :
    processOrthos resolve glyphset ss su lang [] acc = .ok acc := rfl

/-- Evaluation: an aborting head step aborts the loop. -/
theorem processOrthos_cons_err (resolve : Char → Option String)
    (glyphset : List String) (ss su : Bool) (lang : Lang) (o : Ortho)
    (os : List Ortho) (acc : RunAcc) (e : Unit)
    (h : processOrtho resolve glyphset ss su lang o acc = .error e) :
    processOrthos resolve glyphset ss su lang (o :: os) acc = .error e := by
  simp only [processOrthos, h]

/-- Evaluation: a successful head step continues the loop. -/
theorem processOrthos_cons_ok (resolve : Char → Option String)
    (glyphset : List String) (ss su : Bool) (lang : Lang) (o : Ortho)
    (os : List Ortho) (acc acc₁ : RunAcc)
    (h : processOrtho resolve glyphset ss su lang o acc = .ok acc₁) :
    processOrthos resolve glyphset ss su lang (o :: os) acc =
      processOrthos resolve glyphset ss su lang os acc₁ := by
  simp only [processOrthos, h]

/-- Session effects of the orthography loop. -/
theorem processOrthos_effects (resolve : Char → Option String)
    (glyphset : List String) (ss su : Bool) (lang : Lang) :
    ∀ (os : List Ortho) (acc acc' : RunAcc),
    processOrthos resolve glyphset ss su lang os acc = .ok acc' →
    acc'.session.allMarks =
      acc.session.allMarks ++ (os.map Ortho.base_marks).flatten ∧
    (∀ c i, clookup c acc.session.glyphInfoByChar = some i →
      clookup c acc'.session.glyphInfoByChar = some i) ∧
    (∀ c ∈ (os.map orthoChars).flatten, ∃ g,
      clookup c acc'.session.glyphInfoByChar = some (some g)) := by
  intro os
  induction os with
  | nil =>
    intro acc acc' h
    rw [processOrthos_nil] at h
    cases h
    simp
  | cons o os ih =>
    intro acc acc' h
    cases ho : processOrtho resolve glyphset ss su lang o acc with
    | error e =>
      rw [processOrthos_cons_err resolve glyphset ss su lang o os acc e ho] at h
      simp at h
    | ok acc₁ =>
      rw [processOrthos_cons_ok resolve glyphset ss su lang o os acc acc₁ ho] at h
      obtain ⟨ha1, hm1, hc1⟩ :=
        processOrtho_effects resolve glyphset ss su lang o acc acc₁ ho
      obtain ⟨ha2, hm2, hc2⟩ := ih acc₁ acc' h
      refine ⟨?_, fun c i hi => hm2 c i (hm1 c i hi), ?_⟩
      · rw [ha2, ha1]
        simp
      · intro c hc
        simp only [List.map_cons, List.flatten_cons, List.mem_append] at hc
        rcases hc with hc | hc
        · obtain ⟨g, hg⟩ := hc1 c hc
          exact ⟨g, hm2 c (some g) hg⟩
        · exact hc2 c hc

/-- The orthography loop over a session that already holds all the
characters only appends marks. -/
theorem processOrthos_warm (resolve : Char → Option String)
    (glyphset : List String) (ss su : Bool) (lang : Lang) :
    ∀ (os : List Ortho) (acc acc' : RunAcc),
    (∀ c ∈ (os.map orthoChars).flatten, ∃ g,
      clookup c acc.session.glyphInfoByChar = some (some g)) →
    processOrthos resolve glyphset ss su lang os acc = .ok acc' →
    acc'.session.glyphInfoByChar = acc.session.glyphInfoByChar ∧
    acc'.session.charsByGlyphName = acc.session.charsByGlyphName := by
  intro os
  induction os with
  | nil =>
    intro acc acc' _ h
    rw [processOrthos_nil] at h
    cases h
    exact ⟨rfl, rfl⟩
  | cons o os ih =>
    intro acc acc' hall h
    cases ho : processOrtho resolve glyphset ss su lang o acc with
    | error e =>
      rw [processOrthos_cons_err resolve glyphset ss su lang o os acc e ho] at h
      simp at h
    | ok acc₁ =>
      rw [processOrthos_cons_ok resolve glyphset ss su lang o os acc acc₁ ho] at h
      have hallo : ∀ c ∈ orthoChars o, ∃ g,
          clookup c acc.session.glyphInfoByChar = some (some g) := by
        intro c hc
        exact hall c (by simp [hc])
      obtain ⟨hg1, hb1⟩ :=
        processOrtho_warm resolve glyphset ss su lang o acc acc₁ hallo ho
      have hall₁ : ∀ c ∈ (os.map orthoChars).flatten, ∃ g,
          clookup c acc₁.session.glyphInfoByChar = some (some g) := by
        intro c hc
        rw [hg1]
        exact hall c (by simp only [List.map_cons, List.flatten_cons,
          List.mem_append]; exact Or.inr hc)
      obtain ⟨hg2, hb2⟩ := ih acc₁ acc' hall₁ h
      exact ⟨hg2.trans hg1, hb2.trans hb1⟩

/-- The orthography loop treats equivalent accumulators alike. -/
theorem processOrthos_cong (resolve : Char → Option String)
    (glyphset : List String) (ss su : Bool) (lang : Lang) :
    ∀ (os : List Ortho) (acc₁ acc₂ : RunAcc), AccEquiv acc₁ acc₂ →
    RunEquiv (processOrthos resolve glyphset ss su lang os acc₁)
      (processOrthos resolve glyphset ss su lang os acc₂) := by
  intro os
  induction os with
  | nil =>
    intro acc₁ acc₂ he
    rw [processOrthos_nil, processOrthos_nil]
    exact he
  | cons o os ih =>
    intro acc₁ acc₂ he
    have h1 := processOrtho_cong resolve glyphset ss su lang o acc₁ acc₂ he
    cases ho1 : processOrtho resolve glyphset ss su lang o acc₁ with
    | error e =>
      cases ho2 : processOrtho resolve glyphset ss su lang o acc₂ with
      | error f =>
        rw [processOrthos_cons_err resolve glyphset ss su lang o os acc₁ e ho1,
          processOrthos_cons_err resolve glyphset ss su lang o os acc₂ f ho2]
        trivial
      | ok b =>
        rw [ho1, ho2] at h1
        exact absurd h1 (by simp [RunEquiv])
    | ok a =>
      cases ho2 : processOrtho resolve glyphset ss su lang o acc₂ with
      | error f =>
        rw [ho1, ho2] at h1
        exact absurd h1 (by simp [RunEquiv])
      | ok b =>
        rw [processOrthos_cons_ok resolve glyphset ss su lang o os acc₁ a ho1,
          processOrthos_cons_ok resolve glyphset ss su lang o os acc₂ b ho2]
        rw [ho1, ho2] at h1
        exact ih a b h1

/-- Evaluation: a language without an `orthographies` key is skipped. -/
theorem processLang_eval_none (resolve : Char → Option String)
    (glyphset : List String) (script : String) (ss su : Bool) (lang : Lang)
    (acc : RunAcc) (h : lang.orthographies = none) :
    processLang resolve glyphset script ss su lang acc = .ok acc := by
  simp only [processLang, h]

/-- Evaluation: a language with orthographies bumps the total and runs
the loop over the script-matching ones. -/
theorem processLang_eval_some (resolve : Char → Option String)
    (glyphset : List String) (script : String) (ss su : Bool) (lang : Lang)
    (acc : RunAcc) (osAll : List Ortho) (h : lang.orthographies = some osAll) :
    processLang resolve glyphset script ss su lang acc =
      processOrthos resolve glyphset ss su lang
        (osAll.filter (fun o => o.script == script))
        (if (osAll.filter (fun o => o.script == script)).length ≠ 0 then
          { acc with
            total := acc.total + (osAll.filter (fun o => o.script == script)).length }
        else acc) := by
  simp only [processLang, h]

/-- Bumping the total never touches the session or the rows. -/
theorem totalBump_session (acc : RunAcc) (p : Prop) [Decidable p] (n : Nat) :
    (if p then { acc with total := acc.total + n } else acc).session
      = acc.session ∧
    (if p then { acc with total := acc.total + n } else acc).items
      = acc.items ∧
    (if p then { acc with total := acc.total + n } else acc).supportedCount
      = acc.supportedCount ∧
    (if p then { acc with total := acc.total + n } else acc).unsupportedCount
      = acc.unsupportedCount := by
  split
  · exact ⟨rfl, rfl, rfl, rfl⟩
  · exact ⟨rfl, rfl, rfl, rfl⟩

/-- Session effects of one language step. -/
theorem processLang_effects (resolve : Char → Option String)
    (glyphset : List String) (script : String) (ss su : Bool) (lang : Lang)
    (acc acc' : RunAcc)
    (h : processLang resolve glyphset script ss su lang acc = .ok acc') :
    acc'.session.allMarks = acc.session.allMarks ++ langMarks script lang ∧
    (∀ c i, clookup c acc.session.glyphInfoByChar = some i →
      clookup c acc'.session.glyphInfoByChar = some i) ∧
    (∀ c ∈ langChars script lang, ∃ g,
      clookup c acc'.session.glyphInfoByChar = some (some g)) := by
  cases ho : lang.orthographies with
  | none =>
    rw [processLang_eval_none resolve glyphset script ss su lang acc ho] at h
    cases h
    refine ⟨?_, fun c i hi => hi, ?_⟩
    · simp [langMarks, ho]
    · intro c hc
      simp [langChars, ho] at hc
  | some osAll =>
    rw [processLang_eval_some resolve glyphset script ss su lang acc osAll ho] at h
    by_cases hb : (osAll.filter (fun o => o.script == script)).length ≠ 0
    · rw [if_pos hb] at h
      obtain ⟨ha, hm, hc⟩ := processOrthos_effects resolve glyphset ss su lang
        (osAll.filter (fun o => o.script == script)) _ acc' h
      refine ⟨?_, hm, ?_⟩
      · rw [ha]
        simp [langMarks, ho]
      · intro c hcc
        apply hc
        simpa [langChars, ho] using hcc
    · rw [if_neg hb] at h
      obtain ⟨ha, hm, hc⟩ := processOrthos_effects resolve glyphset ss su lang
        (osAll.filter (fun o => o.script == script)) acc acc' h
      refine ⟨?_, hm, ?_⟩
      · rw [ha]
        simp [langMarks, ho]
      · intro c hcc
        apply hc
        simpa [langChars, ho] using hcc

/-- A language step over a saturated session leaves the caches alone. -/
theorem processLang_warm (resolve : Char → Option String)
    (glyphset : List String) (script : String) (ss su : Bool) (lang : Lang)
    (acc acc' : RunAcc)
    (hall : ∀ c ∈ langChars script lang, ∃ g,
      clookup c acc.session.glyphInfoByChar = some (some g))
    (h : processLang resolve glyphset script ss su lang acc = .ok acc') :
    acc'.session.glyphInfoByChar = acc.session.glyphInfoByChar ∧
    acc'.session.charsByGlyphName = acc.session.charsByGlyphName := by
  cases ho : lang.orthographies with
  | none =>
    rw [processLang_eval_none resolve glyphset script ss su lang acc ho] at h
    cases h
    exact ⟨rfl, rfl⟩
  | some osAll =>
    rw [processLang_eval_some resolve glyphset script ss su lang acc osAll ho] at h
    by_cases hb : (osAll.filter (fun o => o.script == script)).length ≠ 0
    · rw [if_pos hb] at h
      obtain ⟨h1, h2⟩ := processOrthos_warm resolve glyphset ss su lang
        (osAll.filter (fun o => o.script == script))
        { acc with
          total := acc.total + (osAll.filter (fun o => o.script == script)).length }
        acc' (fun c hc => hall c (by simpa [langChars, ho] using hc)) h
      exact ⟨h1, h2⟩
    · rw [if_neg hb] at h
      obtain ⟨h1, h2⟩ := processOrthos_warm resolve glyphset ss su lang
        (osAll.filter (fun o => o.script == script)) acc acc'
        (fun c hc => hall c (by simpa [langChars, ho] using hc)) h
      exact ⟨h1, h2⟩

/-- A language step treats equivalent accumulators alike. -/
theorem processLang_cong (resolve : Char → Option String)
    (glyphset : List String) (script : String) (ss su : Bool) (lang : Lang)
    (acc₁ acc₂ : RunAcc) (he : AccEquiv acc₁ acc₂) :
    RunEquiv (processLang resolve glyphset script ss su lang acc₁)
      (processLang resolve glyphset script ss su lang acc₂) := by
  cases ho : lang.orthographies with
  | none =>
    rw [processLang_eval_none resolve glyphset script ss su lang acc₁ ho,
      processLang_eval_none resolve glyphset script ss su lang acc₂ ho]
    exact he
  | some osAll =>
    rw [processLang_eval_some resolve glyphset script ss su lang acc₁ osAll ho,
      processLang_eval_some resolve glyphset script ss su lang acc₂ osAll ho]
    apply processOrthos_cong
    obtain ⟨hsess, htot, hsup, huns, hitems⟩ := he
    by_cases hb : (osAll.filter (fun o => o.script == script)).length ≠ 0
    · rw [if_pos hb, if_pos hb]
      exact ⟨hsess, by simp only [htot], hsup, huns, hitems⟩
    · rw [if_neg hb, if_neg hb]
      exact ⟨hsess, htot, hsup, huns, hitems⟩

/-- Evaluation: the empty language loop. -/
theorem processLangs_nil (resolve : Char → Option String)
    (glyphset : List String) (script : String) (ss su : Bool) (acc : RunAcc) :
    processLangs resolve glyphset script ss su [] acc = .ok acc := rfl

/-- Evaluation: an aborting language step aborts the loop. -/
theorem processLangs_cons_err (resolve : Char → Option String)
    (glyphset : List String) (script : String) (ss su : Bool) (l : Lang)
    (ls : List Lang) (acc : RunAcc) (e : Unit)
    (h : processLang resolve glyphset script ss su l acc = .error e) :
    processLangs resolve glyphset script ss su (l :: ls) acc = .error e := by
  simp only [processLangs, h]

/-- Evaluation: a successful language step continues the loop. -/
theorem processLangs_cons_ok (resolve : Char → Option String)
    (glyphset : List String) (script : String) (ss su : Bool) (l : Lang)
    (ls : List Lang) (acc acc₁ : RunAcc)
    (h : processLang resolve glyphset script ss su l acc = .ok acc₁) :
    processLangs resolve glyphset script ss su (l :: ls) acc =
      processLangs resolve glyphset script ss su ls acc₁ := by
  simp only [processLangs, h]

/-- Session effects of the language loop. -/
theorem processLangs_effects (resolve : Char → Option String)
    (glyphset : List String) (script : String) (ss su : Bool) :
    ∀ (ls : List Lang) (acc acc' : RunAcc),
    processLangs resolve glyphset script ss su ls acc = .ok acc' →
    acc'.session.allMarks = acc.session.allMarks ++ dbMarks ls script ∧
    (∀ c i, clookup c acc.session.glyphInfoByChar = some i →
      clookup c acc'.session.glyphInfoByChar = some i) ∧
    (∀ c ∈ dbChars ls script, ∃ g,
      clookup c acc'.session.glyphInfoByChar = some (some g)) := by
  intro ls
  induction ls with
  | nil =>
    intro acc acc' h
    rw [processLangs_nil] at h
    cases h
    refine ⟨by simp [dbMarks], fun c i hi => hi, ?_⟩
    intro c hc
    simp [dbChars] at hc
  | cons l ls ih =>
    intro acc acc' h
    cases hl : processLang resolve glyphset script ss su l acc with
    | error e =>
      rw [processLangs_cons_err resolve glyphset script ss su l ls acc e hl] at h
      simp at h
    | ok acc₁ =>
      rw [processLangs_cons_ok resolve glyphset script ss su l ls acc acc₁ hl] at h
      obtain ⟨ha1, hm1, hc1⟩ :=
        processLang_effects resolve glyphset script ss su l acc acc₁ hl
      obtain ⟨ha2, hm2, hc2⟩ := ih acc₁ acc' h
      refine ⟨?_, fun c i hi => hm2 c i (hm1 c i hi), ?_⟩
      · rw [ha2, ha1]
        simp [dbMarks]
      · intro c hc
        simp only [dbMarks, dbChars, List.map_cons, List.flatten_cons,
          List.mem_append] at hc
        rcases hc with hc | hc
        · obtain ⟨g, hg⟩ := hc1 c hc
          exact ⟨g, hm2 c (some g) hg⟩
        · exact hc2 c (by simpa [dbChars] using hc)

/-- The language loop over a saturated session leaves the caches
alone. -/
theorem processLangs_warm (resolve : Char → Option String)
    (glyphset : List String) (script : String) (ss su : Bool) :
    ∀ (ls : List Lang) (acc acc' : RunAcc),
    (∀ c ∈ dbChars ls script, ∃ g,
      clookup c acc.session.glyphInfoByChar = some (some g)) →
    processLangs resolve glyphset script ss su ls acc = .ok acc' →
    acc'.session.glyphInfoByChar = acc.session.glyphInfoByChar ∧
    acc'.session.charsByGlyphName = acc.session.charsByGlyphName := by
  intro ls
  induction ls with
  | nil =>
    intro acc acc' _ h
    rw [processLangs_nil] at h
    cases h
    exact ⟨rfl, rfl⟩
  | cons l ls ih =>
    intro acc acc' hall h
    cases hl : processLang resolve glyphset script ss su l acc with
    | error e =>
      rw [processLangs_cons_err resolve glyphset script ss su l ls acc e hl] at h
      simp at h
    | ok acc₁ =>
      rw [processLangs_cons_ok resolve glyphset script ss su l ls acc acc₁ hl] at h
      have halll : ∀ c ∈ langChars script l, ∃ g,
          clookup c acc.session.glyphInfoByChar = some (some g) := by
        intro c hc
        apply hall
        simp only [dbChars, List.map_cons, List.flatten_cons, List.mem_append]
        exact Or.inl hc
      obtain ⟨hg1, hb1⟩ :=
        processLang_warm resolve glyphset script ss su l acc acc₁ halll hl
      have hall₁ : ∀ c ∈ dbChars ls script, ∃ g,
          clookup c acc₁.session.glyphInfoByChar = some (some g) := by
        intro c hc
        rw [hg1]
        apply hall
        simp only [dbChars, List.map_cons, List.flatten_cons, List.mem_append]
        exact Or.inr (by simpa [dbChars] using hc)
      obtain ⟨hg2, hb2⟩ := ih acc₁ acc' hall₁ h
      exact ⟨hg2.trans hg1, hb2.trans hb1⟩

/-- The language loop treats equivalent accumulators alike. -/
theorem processLangs_cong (resolve : Char → Option String)
    (glyphset : List String) (script : String) (ss su : Bool) :
    ∀ (ls : List Lang) (acc₁ acc₂ : RunAcc), AccEquiv acc₁ acc₂ →
    RunEquiv (processLangs resolve glyphset script ss su ls acc₁)
      (processLangs resolve glyphset script ss su ls acc₂) := by
  intro ls
  induction ls with
  | nil =>
    intro acc₁ acc₂ he
    rw [processLangs_nil, processLangs_nil]
    exact he
  | cons l ls ih =>
    intro acc₁ acc₂ he
    have h1 := processLang_cong resolve glyphset script ss su l acc₁ acc₂ he
    cases hl1 : processLang resolve glyphset script ss su l acc₁ with
    | error e =>
      cases hl2 : processLang resolve glyphset script ss su l acc₂ with
      | error f =>
        rw [processLangs_cons_err resolve glyphset script ss su l ls acc₁ e hl1,
          processLangs_cons_err resolve glyphset script ss su l ls acc₂ f hl2]
        trivial
      | ok b =>
        rw [hl1, hl2] at h1
        exact absurd h1 (by simp [RunEquiv])
    | ok a =>
      cases hl2 : processLang resolve glyphset script ss su l acc₂ with
      | error f =>
        rw [hl1, hl2] at h1
        exact absurd h1 (by simp [RunEquiv])
      | ok b =>
        rw [processLangs_cons_ok resolve glyphset script ss su l ls acc₁ a hl1,
          processLangs_cons_ok resolve glyphset script ss su l ls acc₂ b hl2]
        rw [hl1, hl2] at h1
        exact ih a b h1

/-- Inversion of a successful `getLangsForScript_` run: the loop result
and the final stable sort. -/
theorem getLangsForScript_spec (resolve : Char → Option String)
    (glyphset : List String) (db : List Lang) (script : String)
    (ss su : Bool) (st : Session) (acc : RunAcc)
    (h : getLangsForScript resolve glyphset db script ss su st = .ok acc) :
    ∃ acc₀, processLangs resolve glyphset script ss su db
      { session := st, total := 0, supportedCount := 0,
        unsupportedCount := 0, items := [] } = .ok acc₀ ∧
      acc = { acc₀ with items := sortRows acc₀.items } := by
  unfold getLangsForScript at h
  cases hp : processLangs resolve glyphset script ss su db
      { session := st, total := 0, supportedCount := 0,
        unsupportedCount := 0, items := [] } with
  | error e =>
    rw [hp] at h
    simp at h
  | ok acc₀ =>
    rw [hp] at h
    simp only [Except.ok.injEq] at h
    exact ⟨acc₀, rfl, h.symm⟩

/-- A whole run appends exactly the script's marks to `allMarks` and
caches every character it evaluated. -/
theorem getLangsForScript_effects (resolve : Char → Option String)
    (glyphset : List String) (db : List Lang) (script : String)
    (ss su : Bool) (st : Session) (acc : RunAcc)
    (h : getLangsForScript resolve glyphset db script ss su st = .ok acc) :
    acc.session.allMarks = st.allMarks ++ dbMarks db script ∧
    (∀ c i, clookup c st.glyphInfoByChar = some i →
      clookup c acc.session.glyphInfoByChar = some i) ∧
    (∀ c ∈ dbChars db script, ∃ g,
      clookup c acc.session.glyphInfoByChar = some (some g)) := by
  obtain ⟨acc₀, hp, rfl⟩ :=
    getLangsForScript_spec resolve glyphset db script ss su st acc h
  exact processLangs_effects resolve glyphset script ss su db _ acc₀ hp

/-- A run over a session that already caches all the script's
characters leaves both caches untouched. -/
theorem getLangsForScript_warm (resolve : Char → Option String)
    (glyphset : List String) (db : List Lang) (script : String)
    (ss su : Bool) (st : Session) (acc : RunAcc)
    (hall : ∀ c ∈ dbChars db script, ∃ g,
      clookup c st.glyphInfoByChar = some (some g))
    (h : getLangsForScript resolve glyphset db script ss su st = .ok acc) :
    acc.session.glyphInfoByChar = st.glyphInfoByChar ∧
    acc.session.charsByGlyphName = st.charsByGlyphName := by
  obtain ⟨acc₀, hp, rfl⟩ :=
    getLangsForScript_spec resolve glyphset db script ss su st acc h
  exact processLangs_warm resolve glyphset script ss su db _ acc₀ hall hp

/-- A run treats equivalent starting sessions alike. -/
theorem getLangsForScript_cong (resolve : Char → Option String)
    (glyphset : List String) (db : List Lang) (script : String)
    (ss su : Bool) (s₁ s₂ : Session) (he : SessionEquiv s₁ s₂) :
    RunEquiv (getLangsForScript resolve glyphset db script ss su s₁)
      (getLangsForScript resolve glyphset db script ss su s₂) := by
  have h1 := processLangs_cong resolve glyphset script ss su db
    { session := s₁, total := 0, supportedCount := 0,
      unsupportedCount := 0, items := [] }
    { session := s₂, total := 0, supportedCount := 0,
      unsupportedCount := 0, items := [] }
    ⟨he, rfl, rfl, rfl, rfl⟩
  unfold getLangsForScript
  cases hp1 : processLangs resolve glyphset script ss su db
      { session := s₁, total := 0, supportedCount := 0,
        unsupportedCount := 0, items := [] } with
  | error e =>
    cases hp2 : processLangs resolve glyphset script ss su db
        { session := s₂, total := 0, supportedCount := 0,
          unsupportedCount := 0, items := [] } with
    | error f => trivial
    | ok b =>
      rw [hp1, hp2] at h1
      exact absurd h1 (by simp [RunEquiv])
  | ok a =>
    cases hp2 : processLangs resolve glyphset script ss su db
        { session := s₂, total := 0, supportedCount := 0,
          unsupportedCount := 0, items := [] } with
    | error f =>
      rw [hp1, hp2] at h1
      exact absurd h1 (by simp [RunEquiv])
    | ok b =>
      rw [hp1, hp2] at h1
      obtain ⟨hsess, htot, hsup, huns, hitems⟩ := h1
      exact ⟨hsess, by simp only [htot], by simp only [hsup],
        by simp only [huns], by simp only [hitems]⟩

/-- C2 (amended): re-running `getLangsForScript_` with the same script,
database and font can change the output once — the session's mark
accumulator and caches grow — but from the second run on the output is
stable: the second and third runs return identical ordered row lists. -/
theorem C2_amended_stabilizes (resolve : Char → Option String)
    (glyphset : List String) (db : List Lang) (script : String)
    (ss su : Bool) (s0 : Session)
    (h : runOk (((getLangsForScript resolve glyphset db script ss su s0).bind
        (fun a => getLangsForScript resolve glyphset db script ss su a.session)).bind
        (fun a => getLangsForScript resolve glyphset db script ss su a.session))
      = true) :
    itemsOf ((getLangsForScript resolve glyphset db script ss su s0).bind
      (fun a => getLangsForScript resolve glyphset db script ss su a.session)) =
    itemsOf (((getLangsForScript resolve glyphset db script ss su s0).bind
        (fun a => getLangsForScript resolve glyphset db script ss su a.session)).bind
      (fun a => getLangsForScript resolve glyphset db script ss su a.session)) := by
  cases hr1 : getLangsForScript resolve glyphset db script ss su s0 with
  | error e =>
    rw [hr1] at h
    simp [Except.bind, runOk] at h
  | ok a1 =>
    rw [hr1] at h
    simp only [Except.bind] at h ⊢
    cases hr2 : getLangsForScript resolve glyphset db script ss su a1.session with
    | error e => rfl
    | ok a2 =>
      rw [hr2] at h
      simp only [Except.bind] at h ⊢
      cases hr3 : getLangsForScript resolve glyphset db script ss su a2.session with
      | error e =>
        rw [hr3] at h
        simp [runOk] at h
      | ok a3 =>
        obtain ⟨hm1, -, hcache1⟩ :=
          getLangsForScript_effects resolve glyphset db script ss su s0 a1 hr1
        obtain ⟨hm2, -, -⟩ :=
          getLangsForScript_effects resolve glyphset db script ss su
            a1.session a2 hr2
        obtain ⟨hgeq, hbeq⟩ :=
          getLangsForScript_warm resolve glyphset db script ss su
            a1.session a2 hcache1 hr2
        have hsess : SessionEquiv a1.session a2.session := by
          refine ⟨hgeq.symm, hbeq.symm, ?_⟩
          intro c
          rw [hm2]
          simp only [List.mem_append]
          constructor
          · exact fun hc => Or.inl hc
          · rintro (hc | hc)
            · exact hc
            · rw [hm1]
              simp only [List.mem_append]
              exact Or.inr hc
        have hcong := getLangsForScript_cong resolve glyphset db script ss su
          a1.session a2.session hsess
        rw [hr2, hr3] at hcong
        exact hcong.2.2.2.2

/-- Witness for C2 (amended) on the mark-shift fixture: the second and
third runs return the same rows (while the first differs, see the
counterexample). -/
theorem C2_amended_stabilizes_witness : itemsOf runShift2 = itemsOf runShift3 :=
  C2_amended_stabilizes resolveSingleton [] dbMarkShift "S" false true
    emptySession (by decide)

/-- C4 (amended): in the row built for an orthography, a character is
prefixed with the dotted circle U+25CC iff it belongs to the
accumulated mark list — the marks the session accumulated from every
orthography processed so far plus the current orthography's own marks —
not merely the orthography's own mark set. -/
theorem C4_amended_accumulated_marks (resolve : Char → Option String)
    (glyphset : List String) (ss su : Bool) (lang : Lang) (ortho : Ortho)
    (acc acc' : RunAcc)
    (h : processOrtho resolve glyphset ss su lang ortho acc = .ok acc') :
    ∃ supC unsC st₁,
      evalOrthoChars resolve glyphset ortho acc.session = .ok ((supC, unsC), st₁) ∧
      (acc'.items = acc.items ∨
        acc'.items = acc.items ++
          [mkRow lang ortho (acc.session.allMarks ++ ortho.base_marks) supC unsC]) ∧
      (∀ marks c, addDottedCircle marks c = String.mk ['◌', c] ↔ c ∈ marks) ∧
      (∀ marks c, c ∉ marks → addDottedCircle marks c = String.mk [c]) := by
  obtain ⟨supC, unsC, st₁, heval, hsess, htot, hu, hz, hi, hn⟩ :=
    processOrtho_spec resolve glyphset ss su lang ortho acc acc' h
  obtain ⟨ha, -, -⟩ :=
    evalOrthoChars_effects resolve glyphset ortho acc.session supC unsC st₁ heval
  refine ⟨supC, unsC, st₁, heval, ?_, ?_, ?_⟩
  · by_cases hinc : (1 ≤ unsC.length ∧ su = true) ∨ (unsC.length = 0 ∧ ss = true)
    · right
      have hrow := hi hinc
      rw [ha] at hrow
      exact hrow
    · left
      exact hn hinc
  · intro marks c
    unfold addDottedCircle
    constructor
    · intro he
      by_contra hc
      rw [if_neg hc] at he
      have hd : [c] = ['◌', c] := congrArg String.data he
      simp at hd
    · intro hc
      rw [if_pos hc]
  · intro marks c hc
    unfold addDottedCircle
    rw [if_neg hc]

/-- Witness for C4 (amended) at the first orthography of the fixture:
`x` (a mark there) is prefixed, `a` (not a mark anywhere yet) is not. -/
theorem C4_amended_accumulated_marks_witness :
    addDottedCircle ['x'] 'x' = String.mk ['◌', 'x'] ∧
    addDottedCircle ['x'] 'a' = String.mk ['a'] := by
  obtain ⟨supC, unsC, st₁, -, -, hiff, hno⟩ :=
    C4_amended_accumulated_marks resolveSingleton [] false true
      { code := "ka", name := "KA", preferred_name := none, speakers := .num 1,
        status := none, orthographies := some [⟨"S", none, ['a'], ['x']⟩] }
      ⟨"S", none, ['a'], ['x']⟩
      { session := emptySession, total := 0, supportedCount := 0,
        unsupportedCount := 0, items := [] }
      { session := ⟨[('x', some "x"), ('a', some "a")],
          [("x", 'x'), ("a", 'a')], ['x']⟩,
        total := 0,
        supportedCount := 0,
        unsupportedCount := 1,
        items := [⟨"ka", "KA", 1, "", "living", ["a", "◌x"], []⟩] }
      (by rfl)
  exact ⟨(hiff ['x'] 'x').mpr (by decide), hno ['x'] 'a' (by decide)⟩

/-- Membership is preserved by the stable insertion. -/
theorem mem_insRowAsc (r x : Row) (l : List Row) :
    r ∈ insRowAsc x l ↔ r = x ∨ r ∈ l := by
  induction l with
  | nil => simp [insRowAsc]
  | cons y ys ih =>
    unfold insRowAsc
    split
    · simp [List.mem_cons]
    · simp only [List.mem_cons, ih]
      tauto

/-- Membership is preserved by the stable sort of line 344. -/
theorem mem_sortRows (r : Row) (l : List Row) : r ∈ sortRows l ↔ r ∈ l := by
  induction l with
  | nil => simp [sortRows]
  | cons x xs ih =>
    unfold sortRows
    rw [mem_insRowAsc]
    simp [ih]

/-- Every row an orthography step appends obeys the visibility flags:
a complete row needs "show completed", an incomplete one needs "show
incomplete". -/
theorem processOrtho_items_flags (resolve : Char → Option String)
    (glyphset : List String) (ss su : Bool) (lang : Lang) (ortho : Ortho)
    (acc acc' : RunAcc)
    (h : processOrtho resolve glyphset ss su lang ortho acc = .ok acc')
    (r : Row) (hr : r ∈ acc'.items) :
    r ∈ acc.items ∨
      ((r.missing.length = 0 → ss = true) ∧
        (1 ≤ r.missing.length → su = true)) := by
  obtain ⟨supC, unsC, st₁, -, -, -, -, -, hi, hn⟩ :=
    processOrtho_spec resolve glyphset ss su lang ortho acc acc' h
  by_cases hinc : (1 ≤ unsC.length ∧ su = true) ∨ (unsC.length = 0 ∧ ss = true)
  · rw [hi hinc] at hr
    rcases List.mem_append.mp hr with hr | hr
    · exact Or.inl hr
    · right
      simp only [List.mem_singleton] at hr
      subst hr
      have hlen : (mkRow lang ortho (st₁.allMarks ++ ortho.base_marks)
          supC unsC).missing.length = unsC.length := by
        simp [mkRow]
      rw [hlen]
      rcases hinc with ⟨h1, h2⟩ | ⟨h1, h2⟩
      · exact ⟨fun hz => absurd (hz ▸ h1) (by simp), fun _ => h2⟩
      · exact ⟨fun _ => h2, fun hge => absurd (h1 ▸ hge) (by simp)⟩
  · rw [hn hinc] at hr
    exact Or.inl hr

/-- The flag property over the orthography loop. -/
theorem processOrthos_items_flags (resolve : Char → Option String)
    (glyphset : List String) (ss su : Bool) (lang : Lang) :
    ∀ (os : List Ortho) (acc acc' : RunAcc),
    processOrthos resolve glyphset ss su lang os acc = .ok acc' →
    ∀ r ∈ acc'.items, r ∈ acc.items ∨
      ((r.missing.length = 0 → ss = true) ∧
        (1 ≤ r.missing.length → su = true)) := by
  intro os
  induction os with
  | nil =>
    intro acc acc' h r hr
    rw [processOrthos_nil] at h
    cases h
    exact Or.inl hr
  | cons o os ih =>
    intro acc acc' h r hr
    cases ho : processOrtho resolve glyphset ss su lang o acc with
    | error e =>
      rw [processOrthos_cons_err resolve glyphset ss su lang o os acc e ho] at h
      simp at h
    | ok acc₁ =>
      rw [processOrthos_cons_ok resolve glyphset ss su lang o os acc acc₁ ho] at h
      rcases ih acc₁ acc' h r hr with h1 | h1
      · exact processOrtho_items_flags resolve glyphset ss su lang o acc acc₁ ho r h1
      · exact Or.inr h1

/-- The flag property over one language step. -/
theorem processLang_items_flags (resolve : Char → Option String)
    (glyphset : List String) (script : String) (ss su : Bool) (lang : Lang)
    (acc acc' : RunAcc)
    (h : processLang resolve glyphset script ss su lang acc = .ok acc')
    (r : Row) (hr : r ∈ acc'.items) :
    r ∈ acc.items ∨
      ((r.missing.length = 0 → ss = true) ∧
        (1 ≤ r.missing.length → su = true)) := by
  cases ho : lang.orthographies with
  | none =>
    rw [processLang_eval_none resolve glyphset script ss su lang acc ho] at h
    cases h
    exact Or.inl hr
  | some osAll =>
    rw [processLang_eval_some resolve glyphset script ss su lang acc osAll ho] at h
    by_cases hb : (osAll.filter (fun o => o.script == script)).length ≠ 0
    · rw [if_pos hb] at h
      exact processOrthos_items_flags resolve glyphset ss su lang _ _ acc' h r hr
    · rw [if_neg hb] at h
      exact processOrthos_items_flags resolve glyphset ss su lang _ acc acc' h r hr

/-- The flag property over the language loop. -/
theorem processLangs_items_flags (resolve : Char → Option String)
    (glyphset : List String) (script : String) (ss su : Bool) :
    ∀ (ls : List Lang) (acc acc' : RunAcc),
    processLangs resolve glyphset script ss su ls acc = .ok acc' →
    ∀ r ∈ acc'.items, r ∈ acc.items ∨
      ((r.missing.length = 0 → ss = true) ∧
        (1 ≤ r.missing.length → su = true)) := by
  intro ls
  induction ls with
  | nil =>
    intro acc acc' h r hr
    rw [processLangs_nil] at h
    cases h
    exact Or.inl hr
  | cons l ls ih =>
    intro acc acc' h r hr
    cases hl : processLang resolve glyphset script ss su l acc with
    | error e =>
      rw [processLangs_cons_err resolve glyphset script ss su l ls acc e hl] at h
      simp at h
    | ok acc₁ =>
      rw [processLangs_cons_ok resolve glyphset script ss su l ls acc acc₁ hl] at h
      rcases ih acc₁ acc' h r hr with h1 | h1
      · exact processLang_items_flags resolve glyphset script ss su l acc acc₁ hl r h1
      · exact Or.inr h1

/-- The flags cannot influence how an orthography step moves the
session and the counters. -/
theorem processOrtho_flagAgree (resolve : Char → Option String)
    (glyphset : List String) (ss su ss' su' : Bool) (lang : Lang)
    (ortho : Ortho) (acc₁ acc₂ : RunAcc) (he : FlagAgree acc₁ acc₂) :
    FlagRunAgree (processOrtho resolve glyphset ss su lang ortho acc₁)
      (processOrtho resolve glyphset ss' su' lang ortho acc₂) := by
  obtain ⟨hsess, htot, hsup, huns⟩ := he
  cases he1 : evalOrthoChars resolve glyphset ortho acc₁.session with
  | error e =>
    rw [processOrtho_eval_err resolve glyphset ss su lang ortho acc₁ e he1,
      processOrtho_eval_err resolve glyphset ss' su' lang ortho acc₂ e
        (by rw [← hsess]; exact he1)]
    trivial
  | ok p =>
    obtain ⟨⟨supC, unsC⟩, st₁⟩ := p
    have he2 : evalOrthoChars resolve glyphset ortho acc₂.session
        = .ok ((supC, unsC), st₁) := by
      rw [← hsess]
      exact he1
    obtain ⟨a₁, ha₁⟩ := processOrtho_ok_of_eval_ok resolve glyphset ss su
      lang ortho acc₁ supC unsC st₁ he1
    obtain ⟨a₂, ha₂⟩ := processOrtho_ok_of_eval_ok resolve glyphset ss' su'
      lang ortho acc₂ supC unsC st₁ he2
    rw [ha₁, ha₂]
    obtain ⟨sC₁, uC₁, u₁, hev₁, hs₁, ht₁, hu₁, hz₁, -, -⟩ :=
      processOrtho_spec resolve glyphset ss su lang ortho acc₁ a₁ ha₁
    obtain ⟨sC₂, uC₂, u₂, hev₂, hs₂, ht₂, hu₂, hz₂, -, -⟩ :=
      processOrtho_spec resolve glyphset ss' su' lang ortho acc₂ a₂ ha₂
    rw [he1] at hev₁
    rw [he2] at hev₂
    simp only [Except.ok.injEq, Prod.mk.injEq] at hev₁ hev₂
    obtain ⟨⟨he₁a, he₁b⟩, he₁c⟩ := hev₁
    obtain ⟨⟨he₂a, he₂b⟩, he₂c⟩ := hev₂
    subst he₁a
    subst he₁b
    subst he₁c
    subst he₂a
    subst he₂b
    subst he₂c
    refine ⟨?_, ?_, ?_, ?_⟩
    · rw [hs₁, hs₂]
    · rw [ht₁, ht₂, htot]
    · by_cases hz : unsC.length = 0
      · rw [(hz₁ hz).1, (hz₂ hz).1, hsup]
      · rw [(hu₁ hz).2, (hu₂ hz).2, hsup]
    · by_cases hz : unsC.length = 0
      · rw [(hz₁ hz).2, (hz₂ hz).2, huns]
      · rw [(hu₁ hz).1, (hu₂ hz).1, huns]

/-- Flag independence over the orthography loop. -/
theorem processOrthos_flagAgree (resolve : Char → Option String)
    (glyphset : List String) (ss su ss' su' : Bool) (lang : Lang) :
    ∀ (os : List Ortho) (acc₁ acc₂ : RunAcc), FlagAgree acc₁ acc₂ →
    FlagRunAgree (processOrthos resolve glyphset ss su lang os acc₁)
      (processOrthos resolve glyphset ss' su' lang os acc₂) := by
  intro os
  induction os with
  | nil =>
    intro acc₁ acc₂ he
    rw [processOrthos_nil, processOrthos_nil]
    exact he
  | cons o os ih =>
    intro acc₁ acc₂ he
    have h1 := processOrtho_flagAgree resolve glyphset ss su ss' su' lang o
      acc₁ acc₂ he
    cases ho1 : processOrtho resolve glyphset ss su lang o acc₁ with
    | error e =>
      cases ho2 : processOrtho resolve glyphset ss' su' lang o acc₂ with
      | error f =>
        rw [processOrthos_cons_err resolve glyphset ss su lang o os acc₁ e ho1,
          processOrthos_cons_err resolve glyphset ss' su' lang o os acc₂ f ho2]
        trivial
      | ok b =>
        rw [ho1, ho2] at h1
        exact absurd h1 (by simp [FlagRunAgree])
    | ok a =>
      cases ho2 : processOrtho resolve glyphset ss' su' lang o acc₂ with
      | error f =>
        rw [ho1, ho2] at h1
        exact absurd h1 (by simp [FlagRunAgree])
      | ok b =>
        rw [processOrthos_cons_ok resolve glyphset ss su lang o os acc₁ a ho1,
          processOrthos_cons_ok resolve glyphset ss' su' lang o os acc₂ b ho2]
        rw [ho1, ho2] at h1
        exact ih a b h1

/-- Flag independence over one language step. -/
theorem processLang_flagAgree (resolve : Char → Option String)
    (glyphset : List String) (script : String) (ss su ss' su' : Bool)
    (lang : Lang) (acc₁ acc₂ : RunAcc) (he : FlagAgree acc₁ acc₂) :
    FlagRunAgree (processLang resolve glyphset script ss su lang acc₁)
      (processLang resolve glyphset script ss' su' lang acc₂) := by
  cases ho : lang.orthographies with
  | none =>
    rw [processLang_eval_none resolve glyphset script ss su lang acc₁ ho,
      processLang_eval_none resolve glyphset script ss' su' lang acc₂ ho]
    exact he
  | some osAll =>
    rw [processLang_eval_some resolve glyphset script ss su lang acc₁ osAll ho,
      processLang_eval_some resolve glyphset script ss' su' lang acc₂ osAll ho]
    apply processOrthos_flagAgree
    obtain ⟨hsess, htot, hsup, huns⟩ := he
    by_cases hb : (osAll.filter (fun o => o.script == script)).length ≠ 0
    · rw [if_pos hb, if_pos hb]
      exact ⟨hsess, by simp only [htot], hsup, huns⟩
    · rw [if_neg hb, if_neg hb]
      exact ⟨hsess, htot, hsup, huns⟩

/-- Flag independence over the language loop. -/
theorem processLangs_flagAgree (resolve : Char → Option String)
    (glyphset : List String) (script : String) (ss su ss' su' : Bool) :
    ∀ (ls : List Lang) (acc₁ acc₂ : RunAcc), FlagAgree acc₁ acc₂ →
    FlagRunAgree (processLangs resolve glyphset script ss su ls acc₁)
      (processLangs resolve glyphset script ss' su' ls acc₂) := by
  intro ls
  induction ls with
  | nil =>
    intro acc₁ acc₂ he
    rw [processLangs_nil, processLangs_nil]
    exact he
  | cons l ls ih =>
    intro acc₁ acc₂ he
    have h1 := processLang_flagAgree resolve glyphset script ss su ss' su' l
      acc₁ acc₂ he
    cases hl1 : processLang resolve glyphset script ss su l acc₁ with
    | error e =>
      cases hl2 : processLang resolve glyphset script ss' su' l acc₂ with
      | error f =>
        rw [processLangs_cons_err resolve glyphset script ss su l ls acc₁ e hl1,
          processLangs_cons_err resolve glyphset script ss' su' l ls acc₂ f hl2]
        trivial
      | ok b =>
        rw [hl1, hl2] at h1
        exact absurd h1 (by simp [FlagRunAgree])
    | ok a =>
      cases hl2 : processLang resolve glyphset script ss' su' l acc₂ with
      | error f =>
        rw [hl1, hl2] at h1
        exact absurd h1 (by simp [FlagRunAgree])
      | ok b =>
        rw [processLangs_cons_ok resolve glyphset script ss su l ls acc₁ a hl1,
          processLangs_cons_ok resolve glyphset script ss' su' l ls acc₂ b hl2]
        rw [hl1, hl2] at h1
        exact ih a b h1

/-- Evaluation: a successful language loop is followed by the stable
sort of line 344. -/
theorem getLangsForScript_eval_ok (resolve : Char → Option String)
    (glyphset : List String) (db : List Lang) (script : String)
    (ss su : Bool) (st : Session) (acc₀ : RunAcc)
    (h : processLangs resolve glyphset script ss su db
      { session := st, total := 0, supportedCount := 0,
        unsupportedCount := 0, items := [] } = .ok acc₀) :
    getLangsForScript resolve glyphset db script ss su st =
      .ok { acc₀ with items := sortRows acc₀.items } := by
  unfold getLangsForScript
  rw [h]

/-- C8: a complete row (zero missing characters) appears only when
"show completed" is enabled and an incomplete row only when "show
incomplete" is; with both flags false the output is empty; and the
script totals (total, complete, incomplete) do not depend on the flags
at all. -/
theorem C8_visibility_filter (resolve : Char → Option String)
    (glyphset : List String) (db : List Lang) (script : String)
    (ss su : Bool) (st : Session)
    (h : runOk (getLangsForScript resolve glyphset db script ss su st) = true) :
    (∀ r ∈ itemsOf (getLangsForScript resolve glyphset db script ss su st),
      (r.missing.length = 0 → ss = true) ∧ (1 ≤ r.missing.length → su = true)) ∧
    (ss = false → su = false →
      itemsOf (getLangsForScript resolve glyphset db script ss su st) = []) ∧
    (∀ ss' su' : Bool,
      runOk (getLangsForScript resolve glyphset db script ss' su' st) = true ∧
      countsOf (getLangsForScript resolve glyphset db script ss' su' st) =
        countsOf (getLangsForScript resolve glyphset db script ss su st)) := by
  cases hr : getLangsForScript resolve glyphset db script ss su st with
  | error e =>
    rw [hr] at h
    simp [runOk] at h
  | ok acc =>
    obtain ⟨acc₀, hp, hacc⟩ :=
      getLangsForScript_spec resolve glyphset db script ss su st acc hr
    have hP : ∀ r ∈ sortRows acc₀.items,
        (r.missing.length = 0 → ss = true) ∧
        (1 ≤ r.missing.length → su = true) := by
      intro r hrr
      rcases processLangs_items_flags resolve glyphset script ss su db _ acc₀
        hp r ((mem_sortRows r acc₀.items).mp hrr) with h1 | h1
      · simp at h1
      · exact h1
    subst hacc
    refine ⟨hP, ?_, ?_⟩
    · intro hss hsu
      refine List.eq_nil_iff_forall_not_mem.mpr ?_
      intro r hrr
      obtain ⟨p1, p2⟩ := hP r hrr
      rcases Nat.eq_zero_or_pos r.missing.length with hz | hpos
      · have hx := p1 hz
        rw [hss] at hx
        simp at hx
      · have hx := p2 hpos
        rw [hsu] at hx
        simp at hx
    · intro ss' su'
      have hfa := processLangs_flagAgree resolve glyphset script ss' su' ss su
        db
        { session := st, total := 0, supportedCount := 0,
          unsupportedCount := 0, items := [] }
        { session := st, total := 0, supportedCount := 0,
          unsupportedCount := 0, items := [] }
        ⟨rfl, rfl, rfl, rfl⟩
      cases hp' : processLangs resolve glyphset script ss' su' db
          { session := st, total := 0, supportedCount := 0,
            unsupportedCount := 0, items := [] } with
      | error e =>
        rw [hp', hp] at hfa
        exact absurd hfa (by simp [FlagRunAgree])
      | ok acc₀' =>
        rw [hp', hp] at hfa
        obtain ⟨hsess, htot, hsup, huns⟩ := hfa
        rw [getLangsForScript_eval_ok resolve glyphset db script ss' su' st
          acc₀' hp']
        exact ⟨rfl, by simp [countsOf, htot, hsup, huns]⟩

/-- Witness for C8: with both flags off, the demo run returns no rows. -/
theorem C8_visibility_filter_witness :
    itemsOf (getLangsForScript resolveSingleton [] dbSortDemo "S" false false
      emptySession) = [] :=
  (C8_visibility_filter resolveSingleton [] dbSortDemo "S" false false
    emptySession (by decide)).2.1 rfl rfl

/-- Membership is preserved by the descending insertion. -/
theorem mem_insSpeakersDesc (p x : String × Int) (l : List (String × Int)) :
    p ∈ insSpeakersDesc x l ↔ p = x ∨ p ∈ l := by
  induction l with
  | nil => simp [insSpeakersDesc]
  | cons y ys ih =>
    unfold insSpeakersDesc
    split
    · simp [List.mem_cons]
    · simp only [List.mem_cons, ih]
      tauto

/-- Membership is preserved by the descending sort of line 373. -/
theorem mem_sortSpeakersDesc (p : String × Int) (l : List (String × Int)) :
    p ∈ sortSpeakersDesc l ↔ p ∈ l := by
  induction l with
  | nil => simp [sortSpeakersDesc]
  | cons x xs ih =>
    unfold sortSpeakersDesc
    rw [mem_insSpeakersDesc]
    simp [ih]

/-- Descending insertion preserves descending order. -/
theorem pairwise_insSpeakersDesc (x : String × Int) (l : List (String × Int))
    (h : l.Pairwise (fun a b => b.2 ≤ a.2)) :
    (insSpeakersDesc x l).Pairwise (fun a b => b.2 ≤ a.2) := by
  induction l with
  | nil => simp [insSpeakersDesc]
  | cons y ys ih =>
    rw [List.pairwise_cons] at h
    obtain ⟨hy, hys⟩ := h
    unfold insSpeakersDesc
    split
    · rename_i hc
      rw [List.pairwise_cons]
      refine ⟨?_, List.pairwise_cons.mpr ⟨hy, hys⟩⟩
      intro b hb
      rcases List.mem_cons.mp hb with rfl | hb
      · exact hc
      · exact le_trans (hy b hb) hc
    · rename_i hc
      rw [List.pairwise_cons]
      refine ⟨?_, ih hys⟩
      intro b hb
      rcases (mem_insSpeakersDesc b x ys).mp hb with rfl | hb
      · exact le_of_not_le hc
      · exact hy b hb

/-- The catalog sort returns a descending list. -/
theorem sortSpeakersDesc_pairwise (l : List (String × Int)) :
    (sortSpeakersDesc l).Pairwise (fun a b => b.2 ≤ a.2) := by
  induction l with
  | nil => simp [sortSpeakersDesc]
  | cons x xs ih => exact pairwise_insSpeakersDesc x (sortSpeakersDesc xs) ih

/-- Lookup through one `bumpScript`. -/
theorem alookup_bumpScript (s s' : String) (n : Int) :
    ∀ tbl : List (String × Int),
    alookup s (bumpScript s' n tbl) =
      (if s' = s then
        (match alookup s tbl with
         | some t => some (t + n)
         | none => some n)
      else alookup s tbl) := by
  intro tbl
  induction tbl with
  | nil =>
    by_cases hs : s' = s
    · simp [bumpScript, alookup, hs]
    · simp [bumpScript, alookup, hs]
  | cons p tbl ih =>
    obtain ⟨a, b⟩ := p
    by_cases ha : a = s'
    · subst ha
      by_cases hs : a = s
      · subst hs
        simp [bumpScript, alookup]
      · simp [bumpScript, alookup, hs]
    · by_cases hs : a = s
      · subst hs
        have hss : ¬ s' = a := fun he => ha he.symm
        simp [bumpScript, alookup, ha, hss]
      · simp only [bumpScript, if_neg ha, alookup, if_neg hs]
        exact ih

/-- Lookup through one orthography loop of the catalog. -/
theorem alookup_addOrthosSpeakers (n : Int) (s : String) :
    ∀ (os : List Ortho) (tbl : List (String × Int)),
    alookup s (addOrthosSpeakers n os tbl) =
      (match alookup s tbl with
       | some t =>
         some (t + ((os.filter (fun o => o.script == s)).length : Int) * n)
       | none =>
         if (os.filter (fun o => o.script == s)).length = 0 then none
         else some (((os.filter (fun o => o.script == s)).length : Int) * n)) := by
  intro os
  induction os with
  | nil =>
    intro tbl
    cases h : alookup s tbl with
    | some t => simp [addOrthosSpeakers, h]
    | none => simp [addOrthosSpeakers, h]
  | cons o os ih =>
    intro tbl
    by_cases ho : o.script = s
    · simp only [addOrthosSpeakers]
      rw [ih, alookup_bumpScript s o.script n tbl, if_pos ho]
      cases h : alookup s tbl with
      | some t =>
        simp only [List.filter_cons, ho, beq_iff_eq, if_pos ho]
        congr 1
        push_cast [List.length_cons]
        ring
      | none =>
        simp only [List.filter_cons, ho, beq_iff_eq, if_pos ho]
        rw [if_neg (by simp)]
        congr 1
        push_cast [List.length_cons]
        ring
    · simp only [addOrthosSpeakers]
      rw [ih, alookup_bumpScript s o.script n tbl, if_neg ho]
      have hfe : (o :: os).filter (fun o => o.script == s) =
          os.filter (fun o => o.script == s) := by
        simp [List.filter_cons, ho]
      rw [hfe]

/-- Lookup through the whole catalog construction. -/
theorem alookup_buildSpeakerTable (s : String) :
    ∀ (ls : List Lang) (tbl : List (String × Int)),
    alookup s (buildSpeakerTable ls tbl) =
      (match alookup s tbl with
       | some t => some (t + scriptOrthoTotal ls s)
       | none =>
         if ∀ l ∈ ls, orthoCountFor s l = 0 then none
         else some (scriptOrthoTotal ls s)) := by
  intro ls
  induction ls with
  | nil =>
    intro tbl
    cases h : alookup s tbl with
    | some t => simp [buildSpeakerTable, scriptOrthoTotal, h]
    | none => simp [buildSpeakerTable, scriptOrthoTotal, h]
  | cons l ls ih =>
    intro tbl
    simp only [buildSpeakerTable]
    rw [ih, alookup_addOrthosSpeakers (speakersOrZero l) s
      (l.orthographies.getD []) tbl]
    have hcnt : ((l.orthographies.getD []).filter
        (fun o => o.script == s)).length = orthoCountFor s l := rfl
    have htot : scriptOrthoTotal (l :: ls) s =
        (orthoCountFor s l : Int) * speakersOrZero l + scriptOrthoTotal ls s := by
      simp [scriptOrthoTotal]
    cases h : alookup s tbl with
    | some t =>
      simp only [hcnt]
      rw [htot]
      congr 1
      ring
    | none =>
      by_cases hz : orthoCountFor s l = 0
      · rw [hcnt, if_pos hz]
        have hall : (∀ x ∈ l :: ls, orthoCountFor s x = 0) ↔
            (∀ x ∈ ls, orthoCountFor s x = 0) := by
          simp [hz]
        by_cases hrest : ∀ x ∈ ls, orthoCountFor s x = 0
        · rw [if_pos hrest, if_pos (hall.mpr hrest)]
        · rw [if_neg hrest, if_neg (fun hx => hrest (hall.mp hx))]
          rw [htot, hz]
          simp
      · rw [hcnt, if_neg hz]
        have hneg : ¬ ∀ x ∈ l :: ls, orthoCountFor s x = 0 :=
          fun hx => hz (hx l (List.mem_cons_self l ls))
        rw [if_neg hneg]
        simp [htot]

/-- The keys reachable after a bump: the old keys and possibly the new
script. -/
theorem mem_keys_bumpScript (x s : String) (n : Int) :
    ∀ tbl : List (String × Int),
    x ∈ (bumpScript s n tbl).map Prod.fst ↔
      x ∈ tbl.map Prod.fst ∨ x = s := by
  intro tbl
  induction tbl with
  | nil => simp [bumpScript, eq_comm]
  | cons p tbl ih =>
    obtain ⟨a, b⟩ := p
    by_cases ha : a = s
    · subst ha
      have hb : bumpScript a n ((a, b) :: tbl) = (a, b + n) :: tbl := by
        simp [bumpScript]
      rw [hb]
      simp only [List.map_cons, List.mem_cons]
      tauto
    · simp only [bumpScript, if_neg ha, List.map_cons, List.mem_cons, ih]
      tauto

/-- A bump never duplicates a key. -/
theorem keysNodup_bumpScript (s : String) (n : Int) :
    ∀ tbl : List (String × Int), (tbl.map Prod.fst).Nodup →
    ((bumpScript s n tbl).map Prod.fst).Nodup := by
  intro tbl
  induction tbl with
  | nil =>
    intro _
    simp [bumpScript]
  | cons p tbl ih =>
    obtain ⟨a, b⟩ := p
    intro h
    simp only [List.map_cons, List.nodup_cons] at h
    obtain ⟨hna, hnd⟩ := h
    by_cases ha : a = s
    · subst ha
      have hb : bumpScript a n ((a, b) :: tbl) = (a, b + n) :: tbl := by
        simp [bumpScript]
      rw [hb]
      simp only [List.map_cons, List.nodup_cons]
      exact ⟨hna, hnd⟩
    · simp only [bumpScript, if_neg ha, List.map_cons, List.nodup_cons]
      refine ⟨?_, ih hnd⟩
      rw [mem_keys_bumpScript]
      rintro (hx | hx)
      · exact hna hx
      · exact ha hx

/-- The orthography loop of the catalog never duplicates a key. -/
theorem keysNodup_addOrthosSpeakers (n : Int) :
    ∀ (os : List Ortho) (tbl : List (String × Int)),
    (tbl.map Prod.fst).Nodup →
    ((addOrthosSpeakers n os tbl).map Prod.fst).Nodup := by
  intro os
  induction os with
  | nil =>
    intro tbl h
    exact h
  | cons o os ih =>
    intro tbl h
    exact ih (bumpScript o.script n tbl) (keysNodup_bumpScript o.script n tbl h)

/-- The whole catalog table has pairwise distinct script keys. -/
theorem keysNodup_buildSpeakerTable :
    ∀ (ls : List Lang) (tbl : List (String × Int)),
    (tbl.map Prod.fst).Nodup →
    ((buildSpeakerTable ls tbl).map Prod.fst).Nodup := by
  intro ls
  induction ls with
  | nil =>
    intro tbl h
    exact h
  | cons l ls ih =>
    intro tbl h
    exact ih _ (keysNodup_addOrthosSpeakers (speakersOrZero l)
      (l.orthographies.getD []) tbl h)

/-- With distinct keys, membership determines the lookup. -/
theorem alookup_of_mem_nodup (p : String × Int) :
    ∀ tbl : List (String × Int), p ∈ tbl → (tbl.map Prod.fst).Nodup →
    alookup p.1 tbl = some p.2 := by
  intro tbl
  induction tbl with
  | nil =>
    intro h _
    cases h
  | cons q tbl ih =>
    obtain ⟨a, b⟩ := q
    intro hp hnd
    simp only [List.map_cons, List.nodup_cons] at hnd
    obtain ⟨hna, hnd⟩ := hnd
    rcases List.mem_cons.mp hp with rfl | hp
    · simp [alookup]
    · have hne : a ≠ p.1 := by
        intro he
        exact hna (he ▸ List.mem_map.mpr ⟨p, hp, rfl⟩)
      simp only [alookup, if_neg hne]
      exact ih hp hnd

/-- A successful lookup is a member. -/
theorem mem_of_alookup (s : String) (t : Int) :
    ∀ tbl : List (String × Int), alookup s tbl = some t → (s, t) ∈ tbl := by
  intro tbl
  induction tbl with
  | nil =>
    intro h
    cases h
  | cons q tbl ih =>
    obtain ⟨a, b⟩ := q
    intro h
    simp only [alookup] at h
    by_cases ha : a = s
    · rw [if_pos ha] at h
      cases h
      subst ha
      exact List.mem_cons_self _ _
    · rw [if_neg ha] at h
      exact List.mem_cons_of_mem _ (ih h)

/-- C9 (amended): `getScriptsAndSpeakers` reports, for every script
that appears in at least one orthography, the sum over all
script-matching orthographies of their language's speaker count — a
language with several orthographies in the same script is counted once
per orthography — with missing or unknown counts contributing zero,
and the (script, total) pairs are ordered descending by total. -/
theorem C9_amended_totals (db : List Lang) :
    (∀ p ∈ getScriptsAndSpeakers db, p.2 = scriptOrthoTotal db p.1) ∧
    (∀ s : String, (∃ t, (s, t) ∈ getScriptsAndSpeakers db) ↔
      ∃ l ∈ db, 0 < orthoCountFor s l) ∧
    (getScriptsAndSpeakers db).Pairwise (fun a b => b.2 ≤ a.2) := by
  have hN : ((buildSpeakerTable db []).map Prod.fst).Nodup :=
    keysNodup_buildSpeakerTable db [] (by simp)
  have hlk : ∀ s : String, alookup s (buildSpeakerTable db []) =
      (if ∀ l ∈ db, orthoCountFor s l = 0 then none
       else some (scriptOrthoTotal db s)) := by
    intro s
    rw [alookup_buildSpeakerTable s db []]
    rfl
  refine ⟨?_, ?_, sortSpeakersDesc_pairwise (buildSpeakerTable db [])⟩
  · intro p hp
    have hmem : p ∈ buildSpeakerTable db [] :=
      (mem_sortSpeakersDesc p (buildSpeakerTable db [])).mp hp
    have h1 := alookup_of_mem_nodup p (buildSpeakerTable db []) hmem hN
    rw [hlk p.1] at h1
    by_cases hz : ∀ l ∈ db, orthoCountFor p.1 l = 0
    · rw [if_pos hz] at h1
      cases h1
    · rw [if_neg hz] at h1
      exact (Option.some.injEq _ _ ▸ h1).symm
  · intro s
    constructor
    · rintro ⟨t, ht⟩
      have hmem : (s, t) ∈ buildSpeakerTable db [] :=
        (mem_sortSpeakersDesc (s, t) (buildSpeakerTable db [])).mp ht
      have h1 := alookup_of_mem_nodup (s, t) (buildSpeakerTable db []) hmem hN
      rw [hlk s] at h1
      by_cases hz : ∀ l ∈ db, orthoCountFor s l = 0
      · rw [if_pos hz] at h1
        cases h1
      · push_neg at hz
        obtain ⟨l, hl, hcnt⟩ := hz
        exact ⟨l, hl, Nat.pos_of_ne_zero hcnt⟩
    · rintro ⟨l, hl, hcnt⟩
      have hz : ¬ ∀ l ∈ db, orthoCountFor s l = 0 :=
        fun hx => absurd (hx l hl) (Nat.pos_iff_ne_zero.mp hcnt)
      have h1 := hlk s
      rw [if_neg hz] at h1
      refine ⟨scriptOrthoTotal db s, ?_⟩
      exact (mem_sortSpeakersDesc (s, scriptOrthoTotal db s)
        (buildSpeakerTable db [])).mpr
        (mem_of_alookup s (scriptOrthoTotal db s) _ h1)

/-- Witness for C9 (amended): the double-counted fixture's entry equals
the per-orthography total. -/
theorem C9_amended_totals_witness :
    (10 : Int) = scriptOrthoTotal dbDoubleCount "X" := by
  have h := (C9_amended_totals dbDoubleCount).1 ("X", 10) (by decide)
  simpa using h

/-- Membership is preserved by the character insertion. -/
theorem mem_insChar (c x : Char) (l : List Char) :
    c ∈ insChar x l ↔ c = x ∨ c ∈ l := by
  induction l with
  | nil => simp [insChar]
  | cons d ds ih =>
    unfold insChar
    split
    · simp [List.mem_cons]
    · simp only [List.mem_cons, ih]
      tauto

/-- Membership is preserved by the character sort. -/
theorem mem_sortChars (c : Char) (l : List Char) :
    c ∈ sortChars l ↔ c ∈ l := by
  induction l with
  | nil => simp [sortChars]
  | cons x xs ih =>
    unfold sortChars
    rw [mem_insChar]
    simp [ih]

/-- Membership is preserved by the deduplication. -/
theorem mem_dedupChars (c : Char) (l : List Char) :
    c ∈ dedupChars l ↔ c ∈ l := by
  induction l with
  | nil => simp [dedupChars]
  | cons x xs ih =>
    simp only [dedupChars]
    by_cases hx : x ∈ dedupChars xs
    · rw [if_pos hx]
      constructor
      · intro h
        exact List.mem_cons.mpr (Or.inr (ih.mp h))
      · intro h
        rcases List.mem_cons.mp h with rfl | h
        · exact hx
        · exact ih.mpr h
    · rw [if_neg hx]
      simp only [List.mem_cons, ih]

/-- `sorted(set(l))` keeps exactly the members of `l`. -/
theorem mem_sortedSet (c : Char) (l : List Char) :
    c ∈ sortedSet l ↔ c ∈ l := by
  unfold sortedSet
  rw [mem_sortChars, mem_dedupChars]

/-- One lookup preserves session consistency and returns what the
service resolves. -/
theorem glyphInfoForChar_consistent (resolve : Char → Option String)
    (st : Session) (c : Char) (info : Option String) (st₁ : Session)
    (hcon : Consistent resolve st)
    (h : glyphInfoForChar resolve st c = .ok (info, st₁)) :
    info = resolve c ∧ Consistent resolve st₁ := by
  rcases glyphInfoForChar_spec resolve st c info st₁ h with
    ⟨hc, rfl⟩ | ⟨hc, g, hg, rfl, rfl⟩
  · exact ⟨hcon.cacheOk c info hc, hcon⟩
  · refine ⟨hg.symm, ?_, ?_, ?_⟩
    · intro c' info' hc'
      simp only [clookup] at hc'
      by_cases he : c = c'
      · subst he
        rw [if_pos rfl] at hc'
        cases hc'
        exact hg.symm
      · rw [if_neg he] at hc'
        exact hcon.cacheOk c' info' hc'
    · intro g' c' hc'
      simp only [alookup] at hc'
      by_cases he : g = g'
      · subst he
        rw [if_pos rfl] at hc'
        cases hc'
        exact hg
      · rw [if_neg he] at hc'
        exact hcon.inverseOk g' c' hc'
    · intro c' g' hc'
      simp only [clookup] at hc'
      by_cases he : c = c'
      · subst he
        rw [if_pos rfl] at hc'
        cases hc'
        simp [alookup]
      · rw [if_neg he] at hc'
        have h1 := hcon.inverseDefined c' g' hc'
        simp only [alookup]
        by_cases hg' : g = g'
        · rw [if_pos hg']
          rfl
        · rw [if_neg hg']
          exact h1

/-- Under injectivity, a cached character's glyph name maps back to
exactly that character. -/
theorem charsBy_of_cached (resolve : Char → Option String) (st : Session)
    (hinj : Injective1 resolve) (hcon : Consistent resolve st)
    (c : Char) (g : String)
    (hc : clookup c st.glyphInfoByChar = some (some g)) :
    alookup g st.charsByGlyphName = some c := by
  have h1 := hcon.cacheOk c (some g) hc
  have h2 := hcon.inverseDefined c g hc
  obtain ⟨c', hc'⟩ := Option.isSome_iff_exists.mp h2
  have h3 := hcon.inverseOk g c' hc'
  have h4 : c' = c := hinj c' c g h3 h1.symm
  rw [← h4]
  exact hc'

/-- The resolution comprehension preserves consistency and relates the
characters pointwise to their glyph names. -/
theorem mapGlyphNames_consistent (resolve : Char → Option String) :
    ∀ (cs : List Char) (st : Session) (names : List String) (st₁ : Session),
    Consistent resolve st →
    mapGlyphNames resolve cs st = .ok (names, st₁) →
    Consistent resolve st₁ ∧
    List.Forall₂ (fun c g => resolve c = some g) cs names := by
  intro cs
  induction cs with
  | nil =>
    intro st names st₁ hcon h
    simp only [mapGlyphNames, Except.ok.injEq, Prod.mk.injEq] at h
    obtain ⟨h1, h2⟩ := h
    subst h1
    subst h2
    exact ⟨hcon, List.Forall₂.nil⟩
  | cons c cs ih =>
    intro st names st₁ hcon h
    cases hg : glyphInfoForChar resolve st c with
    | error e =>
      rw [mapGlyphNames_cons_err resolve c cs st e hg] at h
      simp at h
    | ok p =>
      obtain ⟨info, stm⟩ := p
      cases info with
      | none =>
        rw [mapGlyphNames_cons_none resolve c cs st stm hg] at h
        simp at h
      | some g =>
        rw [mapGlyphNames_cons_some resolve c cs st g stm hg] at h
        obtain ⟨hres, hconm⟩ :=
          glyphInfoForChar_consistent resolve st c (some g) stm hcon hg
        cases hm : mapGlyphNames resolve cs stm with
        | error e =>
          rw [hm] at h
          simp at h
        | ok q =>
          obtain ⟨names₂, st₂⟩ := q
          rw [hm] at h
          simp only [Except.ok.injEq, Prod.mk.injEq] at h
          obtain ⟨h1, h2⟩ := h
          subst h1
          subst h2
          obtain ⟨hcon₁, hF⟩ := ih stm names₂ _ hconm hm
          exact ⟨hcon₁, List.Forall₂.cons hres.symm hF⟩

/-- Attach the inverse-cache fact to each resolved pair. -/
theorem forall2_with_inverse (resolve : Char → Option String) (st₁ : Session)
    (hinj : Injective1 resolve) (hcon : Consistent resolve st₁) :
    ∀ (cs : List Char) (names : List String),
    List.Forall₂ (fun c g => resolve c = some g) cs names →
    (∀ c ∈ cs, ∃ g, clookup c st₁.glyphInfoByChar = some (some g)) →
    List.Forall₂ (fun c g => resolve c = some g ∧
      alookup g st₁.charsByGlyphName = some c) cs names := by
  intro cs names hF
  induction hF with
  | nil =>
    intro _
    exact List.Forall₂.nil
  | cons hpair hrest ih =>
    rename_i c g cs' names'
    intro hcached
    refine List.Forall₂.cons ⟨hpair, ?_⟩ (ih ?_)
    · obtain ⟨g', hg'⟩ := hcached c (by simp)
      have he : some g' = resolve c := hcon.cacheOk c (some g') hg'
      rw [hpair] at he
      cases he
      exact charsBy_of_cached resolve st₁ hinj hcon c g hg'
    · intro c' hc'
      exact hcached c' (by simp [hc'])

/-- Splitting the names by the glyph set and mapping back through the
inverse cache partitions exactly the evaluated characters. -/
theorem split_charsFor_spec (resolve : Char → Option String)
    (glyphset : List String) (st₁ : Session) :
    ∀ (cs : List Char) (names : List String),
    List.Forall₂ (fun c g => resolve c = some g ∧
      alookup g st₁.charsByGlyphName = some c) cs names →
    ∃ supC unsC,
      charsFor st₁ (splitSupported glyphset names).1 = .ok supC ∧
      charsFor st₁ (splitSupported glyphset names).2 = .ok unsC ∧
      (∀ c, (c ∈ supC ∨ c ∈ unsC) ↔ c ∈ cs) ∧
      (∀ c ∈ supC, ∃ g, resolve c = some g ∧ g ∈ glyphset) ∧
      (∀ c ∈ unsC, ∃ g, resolve c = some g ∧ g ∉ glyphset) := by
  intro cs names hF
  induction hF with
  | nil =>
    exact ⟨[], [], rfl, rfl, by simp, by simp, by simp⟩
  | cons hpair hrest ih =>
    rename_i c g cs' names'
    obtain ⟨hres, hinv⟩ := hpair
    obtain ⟨supC', unsC', hs', hu', hmem', hsup', huns'⟩ := ih
    by_cases hg : g ∈ glyphset
    · have hsplit : splitSupported glyphset (g :: names') =
          (g :: (splitSupported glyphset names').1,
            (splitSupported glyphset names').2) := by
        simp [splitSupported, hg]
      refine ⟨c :: supC', unsC', ?_, ?_, ?_, ?_, ?_⟩
      · rw [hsplit]
        simp only [charsFor, hinv, hs']
      · rw [hsplit]
        exact hu'
      · intro c'
        simp only [List.mem_cons]
        rw [or_assoc]
        constructor
        · rintro (rfl | h)
          · exact Or.inl rfl
          · exact Or.inr ((hmem' c').mp h)
        · rintro (rfl | h)
          · exact Or.inl rfl
          · exact Or.inr ((hmem' c').mpr h)
      · intro c' hc'
        rcases List.mem_cons.mp hc' with rfl | hc'
        · exact ⟨g, hres, hg⟩
        · exact hsup' c' hc'
      · exact huns'
    · have hsplit : splitSupported glyphset (g :: names') =
          ((splitSupported glyphset names').1,
            g :: (splitSupported glyphset names').2) := by
        simp [splitSupported, hg]
      refine ⟨supC', c :: unsC', ?_, ?_, ?_, ?_, ?_⟩
      · rw [hsplit]
        exact hs'
      · rw [hsplit]
        simp only [charsFor, hinv, hu']
      · intro c'
        simp only [List.mem_cons]
        constructor
        · rintro (h | rfl | h)
          · exact Or.inr ((hmem' c').mp (Or.inl h))
          · exact Or.inl rfl
          · exact Or.inr ((hmem' c').mp (Or.inr h))
        · rintro (rfl | h)
          · exact Or.inr (Or.inl rfl)
          · rcases (hmem' c').mpr h with h1 | h1
            · exact Or.inl h1
            · exact Or.inr (Or.inr h1)
      · exact hsup'
      · intro c' hc'
        rcases List.mem_cons.mp hc' with rfl | hc'
        · exact ⟨g, hres, hg⟩
        · exact huns' c' hc'

/-- C6: for every orthography evaluated against a font glyph set, under
the session invariant (caches agree with the service) and the
one-to-one character↔glyph-name invariant, the supported and
unsupported character lists partition the orthography's deduplicated
required character set (base ∪ marks): together they hold exactly its
members, they are disjoint, every supported character resolves to a
glyph name in the font's glyph set and every unsupported one to a
glyph name outside it. -/
theorem C6_partition_correct (resolve : Char → Option String)
    (glyphset : List String) (ortho : Ortho) (st : Session)
    (supC unsC : List Char) (st₁ : Session)
    (hinj : Injective1 resolve) (hcon : Consistent resolve st)
    (h : evalOrthoChars resolve glyphset ortho st = .ok ((supC, unsC), st₁)) :
    (∀ c, (c ∈ supC ∨ c ∈ unsC) ↔
      (c ∈ ortho.base_chars ∨ c ∈ ortho.base_marks)) ∧
    (∀ c, c ∈ supC → c ∉ unsC) ∧
    (∀ c ∈ supC, ∃ g, resolve c = some g ∧ g ∈ glyphset) ∧
    (∀ c ∈ unsC, ∃ g, resolve c = some g ∧ g ∉ glyphset) := by
  obtain ⟨names, hm, hsupEq, hunsEq⟩ :=
    evalOrthoChars_spec resolve glyphset ortho st supC unsC st₁ h
  obtain ⟨hcon₁, hF⟩ := mapGlyphNames_consistent resolve _ st names st₁ hcon hm
  obtain ⟨-, -, hcached⟩ := mapGlyphNames_effects resolve _ st names st₁ hm
  have hF2 := forall2_with_inverse resolve st₁ hinj hcon₁ _ names hF hcached
  obtain ⟨supC', unsC', hs', hu', hmem, hsup, huns⟩ :=
    split_charsFor_spec resolve glyphset st₁ _ names hF2
  have he1 : supC' = supC := Except.ok.inj (hs'.symm.trans hsupEq)
  have he2 : unsC' = unsC := Except.ok.inj (hu'.symm.trans hunsEq)
  subst he1
  subst he2
  refine ⟨?_, ?_, hsup, huns⟩
  · intro c
    rw [hmem c, List.mem_append, mem_sortedSet]
  · intro c hcs hcu
    obtain ⟨g, hg, hgmem⟩ := hsup c hcs
    obtain ⟨g', hg', hgmem'⟩ := huns c hcu
    rw [hg] at hg'
    cases hg'
    exact hgmem' hgmem

/-- The witness resolution service (each character its own glyph name)
satisfies the one-to-one invariant. -/
theorem resolveSingleton_injective : Injective1 resolveSingleton := by
  intro c₁ c₂ g h1 h2
  simp only [resolveSingleton, Option.some.injEq] at h1 h2
  have h3 : String.mk [c₁] = String.mk [c₂] := h1.trans h2.symm
  have hd : [c₁] = [c₂] := congrArg String.data h3
  simp at hd
  exact hd

/-- A fresh session is vacuously consistent with any service. -/
theorem emptySession_consistent (resolve : Char → Option String) :
    Consistent resolve emptySession := by
  constructor
  · intro c info h
    simp [clookup, emptySession] at h
  · intro g c h
    simp [alookup, emptySession] at h
  · intro c g h
    simp [clookup, emptySession] at h

/-- Witness for C6 on a concrete evaluation: `a` is supported (its
glyph is in the font) and therefore not among the unsupported
characters. -/
theorem C6_partition_correct_witness :
    ('a' : Char) ∉ (['b', 'm'] : List Char) := by
  have h := C6_partition_correct resolveSingleton ["a"]
    ⟨"S", none, ['a', 'b'], ['m']⟩ emptySession ['a'] ['b', 'm']
    ⟨[('m', some "m"), ('b', some "b"), ('a', some "a")],
      [("m", 'm'), ("b", 'b'), ("a", 'a')], []⟩
    resolveSingleton_injective (emptySession_consistent resolveSingleton)
    (by rfl)
  exact h.2.1 'a' (by decide)
